import Mathlib

/-
Verification of the externalized LRU cache (`src/index.ts`) and its
memoization adapter against the natural-language specification.

The engine stores every record in one external key-value storage.  The
source serializes node records with `JSON.stringify` and reads them back
with `JSON.parse`; since `JSON.parse ∘ JSON.stringify` is the identity on
these records, the embedding stores records structurally (`Entry.node`),
keeps anchor pointers as the raw key strings they are written with
(`Entry.str`), and keeps the numeric counter records (`lru-cache-size`,
`lru-cache-characters-size`) as the integers whose decimal numerals the
source writes with `String(...)` / `JSON.stringify(...)` and reads back
with `Number(...)` (`Entry.num`); decimal numerals round-trip exactly
through that pair.  Serialized lengths, which the byte accounting uses,
are computed by `_getNodeCharsSize` below with the exact arithmetic of
`JSON.stringify(...).length` (UTF-16 code units, `undefined` properties
omitted, JSON string escaping).

The storage is driven synchronously (the in-memory `Map` / object
backends of the repository); note `_getSize` and `_getCharsSize` read the
storage without `await`, which is well defined only for synchronous
backends, which is what we model.

The value type parameter `V` is instantiated at `String`.
-/

set_option maxHeartbeats 1600000

namespace LRUSpec

/-- One node record of the externalized doubly linked list (`INode<V>` in
the source).  `next` points toward the less-recently-used neighbour (the
direction `entries()` walks, tail = MRU to head = LRU), `prev` toward the
more-recently-used neighbour. -/
structure Node where
  next : Option String
  prev : Option String
  value : String
  key : String
deriving DecidableEq, Repr

/-- A record held in the backing storage: a serialized node, a plain
string (the anchor pointers), or a numeric record (the counters, stored
as their decimal numerals). -/
inductive Entry where
  | node (n : Node)
  | str (s : String)
  | num (v : Int)
deriving DecidableEq, Repr

def Entry.isNode : Entry → Bool
  | .node _ => true
  | _ => false

/-- The backing storage: a finite key-value map, modelled as an
association list with (invariantly) distinct keys, mirroring the
in-memory `Map` / record backends of the repository. -/
abbrev St := List (String × Entry)

/-- `storage.get` -/
def storeGet : St → String → Option Entry
  | [], _ => none
  | (k', e) :: rest, k => if k' = k then some e else storeGet rest k

/-- `storage.set`: overwrite in place, or append a new key. -/
def storeSet : St → String → Entry → St
  | [], k, e => [(k, e)]
  | (k', e') :: rest, k, e =>
    if k' = k then (k, e) :: rest else (k', e') :: storeSet rest k e

/-- `storage.delete`: remove the key (all occurrences; keys are unique in
every reachable storage, matching `Map.delete`). -/
def storeDel : St → String → St
  | [], _ => []
  | (k', e') :: rest, k =>
    if k' = k then storeDel rest k else (k', e') :: storeDel rest k

/-- Keys currently holding a live node record. -/
def liveKeys (st : St) : List String :=
  (st.filter (fun p => p.2.isNode)).map Prod.fst

/-- The number of live node records in storage (the "live entries"). -/
def liveCount (st : St) : Nat := (st.filter (fun p => p.2.isNode)).length

/-- Truthiness of an optional string in the source (`if (key)`,
`node.prev ? ... : ...`, `while (currentNode?.next)`): the empty string
is falsy. -/
def optKey : Option String → Option String
  | some s => if s = "" then none else some s
  | none => none

/-! Reserved storage keys of the engine. -/

def headKeyPtr : String := "lru-cache-head-key-pointer"
def tailKeyPtr : String := "lru-cache-tail-key-pointer"
def charsSizeKey : String := "lru-cache-characters-size"
def sizeKey : String := "lru-cache-size"

def reservedKeys : List String := [headKeyPtr, tailKeyPtr, charsSizeKey, sizeKey]

/-! Serialized-size arithmetic.  JavaScript `String.prototype.length`
counts UTF-16 code units, and `JSON.stringify` escapes `"`, `\`, and
control characters and omits properties whose value is `undefined`. -/

/-- UTF-16 length contribution of one character. -/
def jsCharLen (c : Char) : Int := if c.toNat ≥ 65536 then 2 else 1

/-- `s.length` in JavaScript. -/
def jsLen (s : String) : Int := (s.data.map jsCharLen).sum

/-- Length contribution of one character inside a JSON string literal
produced by `JSON.stringify`. -/
def escLen (c : Char) : Int :=
  if c = '"' ∨ c = '\\' then 2
  else if c.toNat = 8 ∨ c.toNat = 9 ∨ c.toNat = 10 ∨ c.toNat = 12 ∨ c.toNat = 13 then 2
  else if c.toNat < 32 then 6
  else if c.toNat ≥ 65536 then 2 else 1

/-- `JSON.stringify(s).length` for a string `s`. -/
def jsonStrLen (s : String) : Int := 2 + (s.data.map escLen).sum

/-- `JSON.stringify(node).length`.  Fields `value` and `key` are always
present; `next`/`prev` appear only when defined.  (Property order varies
with the construction site in the source but does not affect length.) -/
def nodeJsonLen (n : Node) : Int :=
  2 + (8 + jsonStrLen n.value) + 1 + (6 + jsonStrLen n.key)
  + (match n.next with | some r => 1 + 7 + jsonStrLen r | none => 0)
  + (match n.prev with | some r => 1 + 7 + jsonStrLen r | none => 0)

/-- Engine configuration: `capacity` and the optional byte capacity
(`charsCapacity`). -/
structure Cfg where
  capacity : Int
  charsCapacity : Option Int
deriving DecidableEq, Repr

namespace LRUCache

/-- `_getNode`: fetch and decode the record at `key`; only a (truthy)
serialized node decodes to a node. -/
def _getNode (st : St) (key : String) : Option Node :=
  match storeGet st key with
  | some (.node n) => some n
  | _ => none

/-- `_setNode` -/
def _setNode (st : St) (key : String) (n : Node) : St :=
  storeSet st key (.node n)

/-- `_getTail` -/
def _getTail (st : St) : Option Node :=
  match storeGet st tailKeyPtr with
  | some (.str k) => if k = "" then none else _getNode st k
  | _ => none

/-- `_getHead` -/
def _getHead (st : St) : Option Node :=
  match storeGet st headKeyPtr with
  | some (.str k) => if k = "" then none else _getNode st k
  | _ => none

/-- `_setTail`: link `newTailNode` in front of the current tail (MRU)
node, if there is one and it is a different key. -/
def _setTail (st : St) (newTailNode : Node) : St :=
  match _getTail st with
  | some currentTailNode =>
    if currentTailNode.key ≠ newTailNode.key then
      let st1 := _setNode st currentTailNode.key
        { currentTailNode with prev := some newTailNode.key }
      let newTail := { newTailNode with next := some currentTailNode.key, prev := none }
      let st2 := _setNode st1 newTail.key newTail
      storeSet st2 tailKeyPtr (.str newTail.key)
    else st
  | none => st

/-- `_getMetadataEstimatedCharsSize` -/
def _getMetadataEstimatedCharsSize : Int :=
  jsLen sizeKey + jsLen charsSizeKey + jsLen headKeyPtr + jsLen tailKeyPtr + 200

/-- `_initialize`: first insertion into an empty cache. -/
def _initialize (st : St) (newNode : Node) : St :=
  let st1 := storeSet st tailKeyPtr (.str newNode.key)
  let st2 := storeSet st1 headKeyPtr (.str newNode.key)
  let st3 := storeSet st2 charsSizeKey (.num _getMetadataEstimatedCharsSize)
  _setNode st3 newNode.key newNode

/-- `_removeHead`: evict the current head (LRU) node, returning it. -/
def _removeHead (st : St) : Option Node × St :=
  let currentHead := _getHead st
  let st1 :=
    match currentHead with
    | some ch =>
      match optKey ch.prev with
      | some pk =>
        match _getNode st pk with
        | some newHead =>
          storeSet (_setNode st newHead.key { newHead with next := none })
            headKeyPtr (.str newHead.key)
        | none => st
      | none => st
    | none => st
  let st2 :=
    match currentHead with
    | some ch => if ch.key = "" then st1 else storeDel st1 ch.key
    | none => st1
  (currentHead, st2)

/-- `_getSize` (`Number(storage.get(sizeKey)) || 0`): the size counter is
only ever written as a decimal numeral, any other record reads as `0`. -/
def _getSize (st : St) : Int :=
  match storeGet st sizeKey with
  | some (.num v) => v
  | _ => 0

/-- `_getCharsSize` -/
def _getCharsSize (st : St) : Int :=
  match storeGet st charsSizeKey with
  | some (.num v) => v
  | _ => 0

/-- `_increaseSize` (the returned new size is unused at every call site). -/
def _increaseSize (st : St) : St :=
  storeSet st sizeKey (.num (_getSize st + 1))

/-- `_decreaseSize` (`(n - k) || 0` is the identity on integers). -/
def _decreaseSize (st : St) (itemsRemoved : Int) : St :=
  storeSet st sizeKey (.num (_getSize st - itemsRemoved))

/-- `_increaseCharsSize` -/
def _increaseCharsSize (st : St) (charsAdded : Int) : St :=
  storeSet st charsSizeKey (.num (_getCharsSize st + charsAdded))

/-- `_decreaseCharsSize` -/
def _decreaseCharsSize (st : St) (charsRemoved : Int) : St :=
  storeSet st charsSizeKey (.num (_getCharsSize st - charsRemoved))

/-- `__setAsTop`: unlink `node` from its neighbours and relink it as the
new tail (MRU).  Both neighbour reads precede all writes, as in the
source. -/
def __setAsTop (st : St) (node : Node) : St :=
  let previousNode := match optKey node.prev with
    | some pk => _getNode st pk
    | none => none
  let nextNode := match optKey node.next with
    | some nk => _getNode st nk
    | none => none
  let st1 := match previousNode with
    | some pn => _setNode st pn.key { pn with next := node.next }
    | none => st
  let st2 := match nextNode with
    | some nn => _setNode st1 nn.key { nn with prev := node.prev }
    | none => st1
  let st3 := match nextNode, previousNode with
    | none, some pn => storeSet st2 headKeyPtr (.str pn.key)
    | _, _ => st2
  _setTail st3 node

/-- `get`: look the node up; promote it to MRU unless it already is the
tail; return its value. -/
def get (st : St) (key : String) : Option String × St :=
  match _getNode st key with
  | some node =>
    let promote : Bool :=
      match storeGet st tailKeyPtr with
      | some (.str t) => node.key ≠ t
      | _ => true
    if promote then (some node.value, __setAsTop st node)
    else (some node.value, st)
  | none => (none, st)

/-- `_getNodeCharsSize`: `JSON.stringify(node).length + node.key.length`. -/
def _getNodeCharsSize (n : Node) : Int := nodeJsonLen n + jsLen n.key

/-- `_getNewNodeEstimatedSize`: the worst-case estimate, computed with
both neighbour references present and equal to the node's own key. -/
def _getNewNodeEstimatedSize (key value : String) : Int :=
  _getNodeCharsSize { key := key, value := value, next := some key, prev := some key }

/-- The `while` loop of `_checkCapacity`, with explicit fuel: `none`
means the loop was still running when the fuel ran out (the source loops
forever).  `ccs` and `est` are the loop-invariant reads
`currentCharsSize` and `estimatedNewNodeSize`. -/
def charsEvictLoop (cap ccs est : Int) :
    Nat → Int → Int → St → Option (Int × Int × St)
  | 0, removedItems, removedChars, st =>
    if ccs + est - removedChars > cap then none
    else some (removedItems, removedChars, st)
  | fuel + 1, removedItems, removedChars, st =>
    if ccs + est - removedChars > cap then
      let (removedItem, st') := _removeHead st
      charsEvictLoop cap ccs est fuel (removedItems + 1)
        (removedChars + (match removedItem with
          | some n => _getNodeCharsSize n
          | none => 0)) st'
    else some (removedItems, removedChars, st)

/-- `_checkCapacity`: byte-capacity eviction loop (when configured),
followed by the entry-count check. -/
def _checkCapacity (cfg : Cfg) (fuel : Nat) (st : St) (newNode : Node) : Option St :=
  let afterChars : Option St :=
    match cfg.charsCapacity with
    | some cap =>
      if cap > 0 then
        let ccs := _getCharsSize st
        let est := _getNewNodeEstimatedSize newNode.key newNode.value
        (charsEvictLoop cap ccs est fuel 0 0 st).map
          (fun r => _decreaseCharsSize (_decreaseSize r.2.2 r.1) r.2.1)
      else some st
    | none => some st
  afterChars.map (fun st1 =>
    if _getSize st1 + 1 > cfg.capacity then
      _decreaseSize (_removeHead st1).2 1
    else st1)

/-- `_addNewNode` -/
def _addNewNode (cfg : Cfg) (fuel : Nat) (st : St) (key value : String) : Option St :=
  let newNode : Node := { value := value, key := key, next := none, prev := none }
  let est := _getNewNodeEstimatedSize key value
  if _getSize st = 0 then
    some (_increaseCharsSize (_increaseSize ( _initialize st newNode)) est)
  else
    (_checkCapacity cfg fuel st newNode).map (fun st1 =>
      _increaseCharsSize (_increaseSize (_setTail st1 newNode)) est)

/-- `set`: overwrite-and-promote an existing key, or insert a new node.
`none` means the byte-capacity eviction loop of the source never
terminates on this input. -/
def set (cfg : Cfg) (fuel : Nat) (st : St) (key value : String) : Option St :=
  match _getNode st key with
  | some currentNode =>
    some (get (_setNode st key { currentNode with value := value }) key).2
  | none => _addNewNode cfg fuel st key value

/-- The loop of the `entries()` generator (fuel-bounded; the generator
itself can cycle on corrupted storages). -/
def entriesLoop (st : St) :
    Nat → Option Node → List (Option String × Option String)
  | 0, _ => []
  | fuel + 1, cur =>
    match cur with
    | some n =>
      match optKey n.next with
      | some nk =>
        let cur' := _getNode st nk
        (cur'.map Node.key, cur'.map Node.value) :: entriesLoop st fuel cur'
      | none => []
    | none => []

/-- `entries()`: MRU-to-LRU traversal; note the unconditional first
yield. -/
def entries (st : St) (fuel : Nat) : List (Option String × Option String) :=
  let cur := _getTail st
  (cur.map Node.key, cur.map Node.value) :: entriesLoop st fuel cur

/-- The loop of the `reverseEntries()` generator. -/
def reverseEntriesLoop (st : St) :
    Nat → Option Node → List (Option String × Option String)
  | 0, _ => []
  | fuel + 1, cur =>
    match cur with
    | some n =>
      match optKey n.prev with
      | some pk =>
        let cur' := _getNode st pk
        (cur'.map Node.key, cur'.map Node.value) :: reverseEntriesLoop st fuel cur'
      | none => []
    | none => []

/-- `reverseEntries()`: LRU-to-MRU traversal. -/
def reverseEntries (st : St) (fuel : Nat) : List (Option String × Option String) :=
  let cur := _getHead st
  (cur.map Node.key, cur.map Node.value) :: reverseEntriesLoop st fuel cur

end LRUCache

/-! Operation sequences over the public surface, and the eviction log.
A key is "live" in a storage if it holds a node record; the keys evicted
during one operation are the keys live before it and no longer live
after it. -/

/-- One public cache operation. -/
inductive Op where
  | set (k v : String)
  | get (k : String)
deriving DecidableEq, Repr

def Op.key : Op → String
  | .set k _ => k
  | .get k => k

/-- An operation key fit for the engine: nonempty (truthy) and outside
the engine's reserved key namespace. -/
def Op.keyOK (o : Op) : Prop := o.key ≠ "" ∧ o.key ∉ reservedKeys

instance (o : Op) : Decidable o.keyOK := by
  unfold Op.keyOK; infer_instance

def isLive (st : St) (k : String) : Bool :=
  match storeGet st k with
  | some (.node _) => true
  | _ => false

/-- The keys deleted from storage by one operation, in storage order. -/
def evictedBetween (pre post : St) : List String :=
  (pre.filter (fun p => p.2.isNode && !(isLive post p.1))).map Prod.fst

/-- Run a list of operations, collecting the concatenated eviction log.
`none` propagates a non-terminating `set`. -/
def runOps (cfg : Cfg) (fuel : Nat) : St → List Op → Option (St × List String)
  | st, [] => some (st, [])
  | st, .get k :: rest =>
    let st' := (LRUCache.get st k).2
    (runOps cfg fuel st' rest).map
      (fun r => (r.1, evictedBetween st st' ++ r.2))
  | st, .set k v :: rest =>
    match LRUCache.set cfg fuel st k v with
    | some st' =>
      (runOps cfg fuel st' rest).map
        (fun r => (r.1, evictedBetween st st' ++ r.2))
    | none => none

/-! The abstract LRU reference model: the cache contents as a list of
key-value pairs in most-recently-touched-first order.  `absSet` and
`absGet` are the textbook LRU operations; an eviction removes the final
(least-recently-touched) element, so the concatenated abstract eviction
log lists exactly the least-recently-touched keys in touch order. -/

abbrev AbsState := List (String × String)

def absEraseKey (k : String) : AbsState → AbsState
  | [] => []
  | (k', v) :: rest => if k' = k then absEraseKey k rest else (k', v) :: absEraseKey k rest

def absMem (k : String) (L : AbsState) : Bool := (L.map Prod.fst).contains k

/-- Abstract `set` with entry capacity `cap`: touch-move an existing key
to the front, or insert at the front, evicting the final element first
when the cache is full.  Returns the evicted keys and the new state. -/
def absSet (cap : Int) (k v : String) (L : AbsState) : List String × AbsState :=
  if absMem k L then ([], (k, v) :: absEraseKey k L)
  else if (L.length : Int) + 1 > cap then
    match L.getLast? with
    | some p => ([p.1], (k, v) :: L.dropLast)
    | none => ([], [(k, v)])
  else ([], (k, v) :: L)

/-- Abstract `get`: touch-move an existing key to the front. -/
def absGet (k : String) (L : AbsState) : AbsState :=
  match (L.filter (fun p => p.1 = k)).head? with
  | some (_, v) => (k, v) :: absEraseKey k L
  | none => L

/-- Run the abstract model, collecting its eviction log. -/
def absRun (cap : Int) : AbsState → List Op → AbsState × List String
  | L, [] => (L, [])
  | L, .get k :: rest => let r := absRun cap (absGet k L) rest; (r.1, r.2)
  | L, .set k v :: rest =>
    let s := absSet cap k v L
    let r := absRun cap s.2 rest
    (r.1, s.1 ++ r.2)

/-- The value the abstract model associates with `k`. -/
def absLookup (k : String) (L : AbsState) : Option String :=
  ((L.filter (fun p => p.1 = k)).head?).map Prod.snd

/-! The representation invariant connecting a concrete storage to the
abstract MRU-first contents list. -/

/-- The key of the first element of `L`, or `e` if `L` is empty: the
expected `next` reference of the node sitting directly in front of
segment `L`. -/
def nextKeyOf (L : AbsState) (e : Option String) : Option String :=
  match L with
  | [] => e
  | (k, _) :: _ => some k

/-- The key of the last element of `L`, or `pk` if `L` is empty: the
expected `prev` reference of the node sitting directly behind segment
`L`. -/
def lastKeyOf (L : AbsState) (pk : Option String) : Option String :=
  match L.getLast? with
  | some p => some p.1
  | none => pk

/-- `segOK st pk L e`: the consecutive node records of the list segment
`L` (MRU-first) are all present in `st`, the first one's `prev` is `pk`,
each one's `next` is its successor's key, and the last one's `next` is
`e`. -/
def segOK (st : St) : Option String → AbsState → Option String → Prop
  | _, [], _ => True
  | pk, (k, v) :: rest, e =>
    storeGet st k = some (.node ⟨nextKeyOf rest e, pk, v, k⟩) ∧ segOK st (some k) rest e

def segOKDec (st : St) : (pk : Option String) → (L : AbsState) → (e : Option String) →
    Decidable (segOK st pk L e)
  | _, [], _ => isTrue trivial
  | pk, (k, v) :: rest, e =>
    have : Decidable (segOK st (some k) rest e) := segOKDec st (some k) rest e
    decidable_of_iff
      (storeGet st k = some (.node ⟨nextKeyOf rest e, pk, v, k⟩) ∧ segOK st (some k) rest e)
      Iff.rfl

instance (st : St) (pk : Option String) (L : AbsState) (e : Option String) :
    Decidable (segOK st pk L e) := segOKDec st pk L e

def keysOf (L : AbsState) : List String := L.map Prod.fst

/-- Every live node record of the storage belongs to the abstract
contents. -/
def junkFree (st : St) (L : AbsState) : Prop :=
  ∀ p ∈ st, p.2.isNode = true → p.1 ∈ keysOf L

/-- All cached keys are truthy and outside the reserved namespace. -/
def keysValid (L : AbsState) : Prop :=
  ∀ k ∈ keysOf L, k ≠ "" ∧ k ∉ reservedKeys

/-- Representation invariant minus the size counter (the engine lets the
counter go stale between `_removeHead` and the matching
`_decreaseSize`). -/
def RelNoSize (st : St) (L : AbsState) : Prop :=
  segOK st none L none ∧
  storeGet st tailKeyPtr = (L.head?.map (fun p => Entry.str p.1)) ∧
  storeGet st headKeyPtr = ((L.getLast?).map (fun p => Entry.str p.1)) ∧
  junkFree st L ∧
  (keysOf L).Nodup ∧
  keysValid L ∧
  (st.map Prod.fst).Nodup

/-- Full representation invariant: a concrete storage realizes the
abstract MRU-first contents list `L`. -/
def Rel (st : St) (L : AbsState) : Prop :=
  RelNoSize st L ∧
  storeGet st sizeKey = (if L.isEmpty then none else some (.num (L.length : Int)))

instance (st : St) (L : AbsState) : Decidable (RelNoSize st L) := by
  unfold RelNoSize junkFree keysValid; infer_instance

instance (st : St) (L : AbsState) : Decidable (Rel st L) := by
  unfold Rel; infer_instance

/-! The memoization adapter (`memoize` in the source).  The wrapped
callable is modelled for runs in which no step raises, which is the only
situation the claims address: the `try`/`catch` never takes its `catch`
branch, so the error hook never fires.  `func` and the key derivation
are pure; the duck-typed `cache` dependency is instantiated with the
repository's in-memory string map.  `generateKey` (an md5 digest of the
serialized argument list, from an external library) is abstracted as the
`hashKey` parameter. -/

inductive MEvent where
  | cacheUsed
  | funcCalled
deriving DecidableEq, Repr

structure MemoOut where
  value : String
  cacheSt : List (String × String)
  events : List MEvent
  funcInvocations : Nat
deriving DecidableEq, Repr

def cacheGet : List (String × String) → String → Option String
  | [], _ => none
  | (k', v) :: rest, k => if k' = k then some v else cacheGet rest k

def cacheSet : List (String × String) → String → String → List (String × String)
  | [], k, v => [(k, v)]
  | (k', v') :: rest, k, v =>
    if k' = k then (k, v) :: rest else (k', v') :: cacheSet rest k v

/-- One invocation of the wrapped callable `memoized`.  Mirrors the
source: the cached value is tested for truthiness (`if (valueFromCache)`),
as is the function result after the `try` block (`if (functionResult)`);
a falsy function result causes the unguarded second invocation of
`func`. -/
def memoizedCall (keyResolver : Option (List String → String))
    (hashKey : List String → String) (func : List String → String)
    (st : List (String × String)) (args : List String) : MemoOut :=
  let key := match keyResolver with
    | some r => r args
    | none => hashKey args
  let hit := match cacheGet st key with
    | some v => if v = "" then none else some v
    | none => none
  match hit with
  | some v => ⟨v, st, [.cacheUsed], 0⟩
  | none =>
    let r := func args
    let st' := cacheSet st key r
    if r ≠ "" then ⟨r, st', [.funcCalled], 1⟩
    else ⟨func args, st', [.funcCalled, .funcCalled], 2⟩

/-- Construction-time validation performed by `memoize` before the
wrapped callable exists.  The three `TypeError` sites are checked in
source order.  `funcOk`, `keyResolverOk` and `cacheOk` stand for the
dynamic `typeof` shape tests on the respective arguments; the logging
hooks are destructured from `logger || {}` with function defaults, so
for arguments of the declared `Memoize<T>` type the third check reduces
to `!logger`. -/
inductive MemoizeInitError where
  | expectedFunction
  | expectedCache
  | expectedLogger
deriving DecidableEq, Repr

def memoizeInit (funcOk keyResolverOk cacheOk : Bool) (logger : Option Unit) :
    Except MemoizeInitError Unit :=
  if !funcOk || !keyResolverOk then .error .expectedFunction
  else if !cacheOk then .error .expectedCache
  else
    match logger with
    | none => .error .expectedLogger
    | some _ => .ok ()

/-! Concrete scenario inputs used by the claims. -/

/-- Capacity-3 configuration, byte capacity disabled (C2). -/
def cfgCap3 : Cfg := ⟨3, none⟩

/-- Capacity-1 configuration, byte capacity disabled. -/
def cfgCap1 : Cfg := ⟨1, none⟩

/-- Capacity 100 with byte capacity 50 (C6). -/
def cfgBytes : Cfg := ⟨100, some 50⟩

/-- A value whose estimated serialized size (113) alone exceeds the byte
capacity 50 of `cfgBytes`. -/
def bigValue : String := String.mk (List.replicate 60 'z')

/-- A storage whose LRU anchor references a key with no record, and
whose node `"a"` carries a dangling `prev` reference (C7). -/
def danglingSt : St :=
  [(headKeyPtr, .str "ghost"), ("a", .node ⟨none, some "ghost", "v", "a"⟩)]

/-- The three-insert operation sequence `set(1,"a"); set(2,"b"); set(3,"c")`. -/
def opsABC : List Op := [.set "1" "a", .set "2" "b", .set "3" "c"]

/-- C2 scenario, phase 2: the above followed by `set(4,"d")`. -/
def opsC2b : List Op := opsABC ++ [.set "4" "d"]

/-- C2 scenario, phase 3: the above followed by `get(2)`. -/
def opsC2c : List Op := opsC2b ++ [.get "2"]

/-- C2 scenario, phase 4: the above followed by `set(5,"e")`. -/
def opsC2d : List Op := opsC2c ++ [.set "5" "e"]

/-- The storage holding the single entry `("a", "v")`, produced by one
`set` on an empty storage. -/
def oneNodeSt : St := (LRUCache.set cfgCap3 9 [] "a" "v").getD []

/-- The storage after inserting `bigValue` under key `"big"` into an
empty cache configured with `cfgBytes`. -/
def bigSt : St := (LRUCache.set cfgBytes 9 [] "big" bigValue).getD []

/-- The storage reached after the byte-capacity eviction loop evicts the
`"big"` node of `bigSt`: both anchors dangle, so `_removeHead` can make
no further progress. -/
def stuckSt : St := (LRUCache._removeHead bigSt).2

/-- The cache key the wrapped callable derives from its argument list. -/
def memoKey (keyResolver : Option (List String → String))
    (hashKey : List String → String) (args : List String) : String :=
  match keyResolver with
  | some r => r args
  | none => hashKey args

/-! Storage-level lemmas. -/

theorem storeGet_storeSet_self (st : St) (k : String) (e : Entry) :
    storeGet (storeSet st k e) k = some e := by
  induction st with
  | nil => simp [storeSet, storeGet]
  | cons p rest ih =>
    obtain ⟨k', e'⟩ := p
    by_cases h : k' = k <;> simp [storeSet, storeGet, h, ih]

theorem storeGet_storeSet_ne (st : St) {k k' : String} (e : Entry) (h : k' ≠ k) :
    storeGet (storeSet st k e) k' = storeGet st k' := by
  induction st with
  | nil => simp [storeSet, storeGet, Ne.symm h]
  | cons p rest ih =>
    obtain ⟨k₀, e₀⟩ := p
    by_cases h0 : k₀ = k
    · subst h0
      simp [storeSet, storeGet, Ne.symm h]
    · by_cases h1 : k₀ = k' <;>
        simp [storeSet, storeGet, h0, h1, h, ih]

theorem storeGet_storeDel_self (st : St) (k : String) :
    storeGet (storeDel st k) k = none := by
  induction st with
  | nil => simp [storeDel, storeGet]
  | cons p rest ih =>
    obtain ⟨k₀, e₀⟩ := p
    by_cases h0 : k₀ = k <;> simp [storeDel, storeGet, h0, ih]

theorem storeGet_storeDel_ne (st : St) {k k' : String} (h : k' ≠ k) :
    storeGet (storeDel st k) k' = storeGet st k' := by
  induction st with
  | nil => simp [storeDel, storeGet]
  | cons p rest ih =>
    obtain ⟨k₀, e₀⟩ := p
    by_cases h0 : k₀ = k
    · subst h0
      simp [storeDel, storeGet, Ne.symm h, ih]
    · by_cases h1 : k₀ = k' <;> simp [storeDel, storeGet, h0, h1, h, ih]

theorem mem_storeSet {st : St} {k : String} {e : Entry} {p : String × Entry}
    (h : p ∈ storeSet st k e) : p = (k, e) ∨ p ∈ st := by
  induction st with
  | nil => simpa [storeSet] using h
  | cons q rest ih =>
    obtain ⟨k₀, e₀⟩ := q
    by_cases h0 : k₀ = k
    · simp [storeSet, h0] at h
      rcases h with h | h
      · exact Or.inl (by simp [h])
      · exact Or.inr (by simp [h])
    · simp [storeSet, h0] at h
      rcases h with h | h
      · exact Or.inr (by simp [h])
      · rcases ih h with h' | h'
        · exact Or.inl h'
        · exact Or.inr (by simp [h'])

theorem mem_storeDel {st : St} {k : String} {p : String × Entry}
    (h : p ∈ storeDel st k) : p ∈ st ∧ p.1 ≠ k := by
  induction st with
  | nil => simp [storeDel] at h
  | cons q rest ih =>
    obtain ⟨k₀, e₀⟩ := q
    by_cases h0 : k₀ = k
    · simp [storeDel, h0] at h
      rcases ih h with ⟨h1, h2⟩
      exact ⟨by simp [h1], h2⟩
    · simp [storeDel, h0] at h
      rcases h with h | h
      · refine ⟨by simp [h], ?_⟩
        rw [h]
        exact h0
      · rcases ih h with ⟨h1, h2⟩
        exact ⟨by simp [h1], h2⟩

theorem mem_keys_storeSet {st : St} {k kk : String} {e : Entry} :
    kk ∈ (storeSet st k e).map Prod.fst ↔ kk = k ∨ kk ∈ st.map Prod.fst := by
  induction st with
  | nil => simp [storeSet]
  | cons q rest ih =>
    obtain ⟨k₀, e₀⟩ := q
    by_cases h0 : k₀ = k
    · subst h0
      simp [storeSet]
    · simp only [storeSet, if_neg h0, List.map_cons, List.mem_cons, ih]
      tauto

theorem keysNodup_storeSet {st : St} (k : String) (e : Entry)
    (h : (st.map Prod.fst).Nodup) : ((storeSet st k e).map Prod.fst).Nodup := by
  induction st with
  | nil => simp [storeSet]
  | cons q rest ih =>
    obtain ⟨k₀, e₀⟩ := q
    simp only [List.map_cons, List.nodup_cons] at h
    by_cases h0 : k₀ = k
    · subst h0
      simp only [storeSet, if_true]
      simp only [List.map_cons, List.nodup_cons]
      exact h
    · simp only [storeSet, if_neg h0, List.map_cons, List.nodup_cons]
      refine ⟨?_, ih h.2⟩
      intro hmem
      rcases mem_keys_storeSet.mp hmem with h1 | h1
      · exact h0 h1
      · exact h.1 h1

theorem storeDel_sublist (st : St) (k : String) : List.Sublist (storeDel st k) st := by
  induction st with
  | nil => simp [storeDel]
  | cons q rest ih =>
    obtain ⟨k₀, e₀⟩ := q
    by_cases h0 : k₀ = k
    · simpa [storeDel, h0] using List.Sublist.cons (k₀, e₀) ih
    · simpa [storeDel, h0] using List.Sublist.cons₂ (k₀, e₀) ih

theorem keysNodup_storeDel {st : St} (k : String)
    (h : (st.map Prod.fst).Nodup) : ((storeDel st k).map Prod.fst).Nodup :=
  h.sublist ((storeDel_sublist st k).map Prod.fst)

theorem storeGet_mem {st : St} {k : String} {e : Entry}
    (h : storeGet st k = some e) : (k, e) ∈ st := by
  induction st with
  | nil => simp [storeGet] at h
  | cons q rest ih =>
    obtain ⟨k₀, e₀⟩ := q
    by_cases h0 : k₀ = k
    · subst h0
      simp [storeGet] at h
      simp [h]
    · simp [storeGet, h0] at h
      simp [ih h]

theorem storeGet_eq_none_iff {st : St} {k : String} :
    storeGet st k = none ↔ k ∉ st.map Prod.fst := by
  induction st with
  | nil => simp [storeGet]
  | cons q rest ih =>
    obtain ⟨k₀, e₀⟩ := q
    by_cases h0 : k₀ = k
    · subst h0
      simp [storeGet]
    · simp [storeGet, h0, ih, Ne.symm h0]

theorem keysOf_nil : keysOf [] = [] := rfl

theorem keysOf_cons (p : String × String) (L : AbsState) :
    keysOf (p :: L) = p.1 :: keysOf L := rfl

theorem keysOf_append (A B : AbsState) : keysOf (A ++ B) = keysOf A ++ keysOf B :=
  List.map_append _ _ _

theorem mem_keysOf {k : String} {L : AbsState} :
    k ∈ keysOf L ↔ ∃ v, (k, v) ∈ L := by
  constructor
  · intro h
    rcases List.mem_map.mp h with ⟨⟨k', v⟩, hm, he⟩
    exact ⟨v, by simpa [← he] using hm⟩
  · rintro ⟨v, hm⟩
    exact List.mem_map.mpr ⟨(k, v), hm, rfl⟩

theorem keysOf_decomp {k : String} {L : AbsState} (h : k ∈ keysOf L) :
    ∃ v A B, L = A ++ (k, v) :: B := by
  rcases mem_keysOf.mp h with ⟨v, hm⟩
  rcases List.append_of_mem hm with ⟨A, B, he⟩
  exact ⟨v, A, B, he⟩

theorem nextKeyOf_congr {Y : AbsState} (h : Y ≠ []) (e e' : Option String) :
    nextKeyOf Y e = nextKeyOf Y e' := by
  cases Y with
  | nil => exact absurd rfl h
  | cons p r => rfl

theorem nextKeyOf_append (X Y : AbsState) (e : Option String) :
    nextKeyOf (X ++ Y) e = nextKeyOf X (nextKeyOf Y e) := by
  cases X with
  | nil => rfl
  | cons p r => rfl

theorem lastKeyOf_cons (p : String × String) (L : AbsState) (pk : Option String) :
    lastKeyOf (p :: L) pk = lastKeyOf L (some p.1) := by
  cases L with
  | nil => rfl
  | cons q r =>
    cases hg : (q :: r).getLast? with
    | none => simp [List.getLast?_eq_none_iff] at hg
    | some x => simp [lastKeyOf, hg]

theorem lastKeyOf_append_cons (A : AbsState) (p : String × String) (B : AbsState)
    (pk : Option String) :
    lastKeyOf (A ++ p :: B) pk = lastKeyOf B (some p.1) := by
  induction A generalizing pk with
  | nil => exact lastKeyOf_cons p B pk
  | cons q A' ih =>
    rw [List.cons_append, lastKeyOf_cons]
    exact ih _

theorem segOK_nil (st : St) (pk e : Option String) : segOK st pk [] e := trivial

theorem segOK_cons_iff (st : St) (pk e : Option String) (k v : String) (rest : AbsState) :
    segOK st pk ((k, v) :: rest) e ↔
      storeGet st k = some (.node ⟨nextKeyOf rest e, pk, v, k⟩) ∧ segOK st (some k) rest e :=
  Iff.rfl

theorem segOK_append {st : St} {pk e : Option String} (X Y : AbsState) :
    segOK st pk (X ++ Y) e ↔
      segOK st pk X (nextKeyOf Y e) ∧ segOK st (lastKeyOf X pk) Y e := by
  induction X generalizing pk with
  | nil => simp [segOK, lastKeyOf]
  | cons p X' ih =>
    obtain ⟨k, v⟩ := p
    rw [List.cons_append, segOK_cons_iff, segOK_cons_iff, ih, lastKeyOf_cons,
      nextKeyOf_append, and_assoc]

theorem segOK_congr {st st' : St} {pk e : Option String} {X : AbsState}
    (hag : ∀ kk ∈ keysOf X, storeGet st' kk = storeGet st kk)
    (h : segOK st pk X e) : segOK st' pk X e := by
  induction X generalizing pk with
  | nil => trivial
  | cons p X' ih =>
    obtain ⟨k, v⟩ := p
    rcases h with ⟨h1, h2⟩
    refine ⟨?_, ih (fun kk hk => hag kk (by simp [keysOf_cons, hk])) h2⟩
    rw [hag k (by simp [keysOf_cons])]
    exact h1

theorem segOK_mem_node {st : St} {pk e : Option String} {X : AbsState} {k : String}
    (h : segOK st pk X e) (hk : k ∈ keysOf X) :
    ∃ n, storeGet st k = some (.node n) := by
  induction X generalizing pk with
  | nil => simp [keysOf_nil] at hk
  | cons p X' ih =>
    obtain ⟨k₀, v₀⟩ := p
    rcases h with ⟨h1, h2⟩
    rcases List.mem_cons.mp (by simpa [keysOf_cons] using hk) with h3 | h3
    · subst h3
      exact ⟨_, h1⟩
    · exact ih h2 h3

theorem storeGet_of_mem {st : St} {k : String} {e : Entry}
    (hnd : (st.map Prod.fst).Nodup) (hm : (k, e) ∈ st) : storeGet st k = some e := by
  induction st with
  | nil => simp at hm
  | cons q rest ih =>
    obtain ⟨k₀, e₀⟩ := q
    simp only [List.map_cons, List.nodup_cons] at hnd
    rcases List.mem_cons.mp hm with h | h
    · rw [Prod.mk.injEq] at h
      simp [storeGet, h.1, h.2]
    · have hk : k₀ ≠ k := by
        intro he
        subst he
        exact hnd.1 (List.mem_map_of_mem Prod.fst h)
      simp [storeGet, hk, ih hnd.2 h]

/-! Liveness, counting, and the eviction log. -/

theorem isLive_of_node {post : St} {kk : String} {n : Node}
    (h : storeGet post kk = some (.node n)) : isLive post kk = true := by
  simp [isLive, h]

theorem isLive_false_of_none {post : St} {kk : String}
    (h : storeGet post kk = none) : isLive post kk = false := by
  simp [isLive, h]

theorem mem_liveKeys {st : St} {kk : String} :
    kk ∈ liveKeys st ↔ ∃ e, (kk, e) ∈ st ∧ e.isNode = true := by
  unfold liveKeys
  constructor
  · intro h
    rcases List.mem_map.mp h with ⟨p, hp, he⟩
    rcases List.mem_filter.mp hp with ⟨h1, h2⟩
    exact ⟨p.2, by simpa [← he] using h1, h2⟩
  · rintro ⟨e, hm, hn⟩
    exact List.mem_map.mpr ⟨(kk, e), List.mem_filter.mpr ⟨hm, hn⟩, rfl⟩

theorem liveKeys_nodup {st : St} (h : (st.map Prod.fst).Nodup) :
    (liveKeys st).Nodup :=
  h.sublist ((List.filter_sublist st).map Prod.fst)

theorem liveCount_eq_length_liveKeys (st : St) : liveCount st = (liveKeys st).length := by
  simp [liveCount, liveKeys]

theorem relNoSize_getNode_not_mem {st : St} {L : AbsState} {k : String}
    (h : RelNoSize st L) (hk : k ∉ keysOf L) :
    LRUCache._getNode st k = none := by
  obtain ⟨hseg, htl, hhd, hjunk, hnd, hval, hstnd⟩ := h
  unfold LRUCache._getNode
  cases hg : storeGet st k with
  | none => rfl
  | some e =>
    cases e with
    | node n => exact absurd (hjunk (k, .node n) (storeGet_mem hg) rfl) hk
    | str s => rfl
    | num v => rfl

theorem relNoSize_liveCount {st : St} {L : AbsState}
    (h : RelNoSize st L) : liveCount st = L.length := by
  obtain ⟨hseg, htl, hhd, hjunk, hnd, hval, hstnd⟩ := h
  have hmemiff : ∀ kk, kk ∈ liveKeys st ↔ kk ∈ keysOf L := by
    intro kk
    constructor
    · intro hkk
      rcases mem_liveKeys.mp hkk with ⟨e, hm, hn⟩
      exact hjunk (kk, e) hm hn
    · intro hkk
      rcases segOK_mem_node hseg hkk with ⟨n, hg⟩
      exact mem_liveKeys.mpr ⟨.node n, storeGet_mem hg, rfl⟩
  have hperm := (List.perm_ext_iff_of_nodup (liveKeys_nodup hstnd) hnd).mpr hmemiff
  rw [liveCount_eq_length_liveKeys, hperm.length_eq]
  simp [keysOf]

theorem rel_getSize {st : St} {L : AbsState} (h : Rel st L) :
    LRUCache._getSize st = (L.length : Int) := by
  obtain ⟨_, hsz⟩ := h
  unfold LRUCache._getSize
  rw [hsz]
  cases L with
  | nil => simp
  | cons p r => simp

theorem evictedBetween_nil_of_live {pre post : St}
    (h : ∀ p ∈ pre, p.2.isNode = true → isLive post p.1 = true) :
    evictedBetween pre post = [] := by
  unfold evictedBetween
  rw [List.filter_eq_nil_iff.mpr]
  · rfl
  · intro p hp
    by_cases hn : p.2.isNode = true
    · simp [hn, h p hp hn]
    · simp [Bool.not_eq_true] at hn
      simp [hn]

theorem evictedBetween_singleton {pre post : St} {lk : String} {e : Entry}
    (hnd : (pre.map Prod.fst).Nodup)
    (hm : (lk, e) ∈ pre) (he : e.isNode = true) (hdead : isLive post lk = false)
    (hother : ∀ p ∈ pre, p.1 ≠ lk → p.2.isNode = true → isLive post p.1 = true) :
    evictedBetween pre post = [lk] := by
  unfold evictedBetween
  induction pre with
  | nil => simp at hm
  | cons q rest ih =>
    obtain ⟨k₀, e₀⟩ := q
    simp only [List.map_cons, List.nodup_cons] at hnd
    by_cases h0 : k₀ = lk
    · subst h0
      have he0 : e₀ = e := by
        rcases List.mem_cons.mp hm with h1 | h1
        · exact ((Prod.mk.injEq .. ▸ h1).2).symm
        · exact absurd (List.mem_map_of_mem Prod.fst h1) hnd.1
      subst he0
      have hrest : rest.filter (fun p => p.2.isNode && !(isLive post p.1)) = [] := by
        rw [List.filter_eq_nil_iff.mpr]
        intro p hp
        have hpk : p.1 ≠ k₀ := by
          intro hcon
          exact hnd.1 (hcon ▸ List.mem_map_of_mem Prod.fst hp)
        by_cases hn : p.2.isNode = true
        · simp [hn, hother p (List.mem_cons_of_mem _ hp) hpk hn]
        · simp [Bool.not_eq_true] at hn
          simp [hn]
      simp [List.filter_cons, he, hdead, hrest]
    · have hmr : (lk, e) ∈ rest := by
        rcases List.mem_cons.mp hm with h1 | h1
        · exact absurd ((Prod.mk.injEq .. ▸ h1).1).symm h0
        · exact h1
      have hq : ¬((k₀, e₀).2.isNode && !(isLive post (k₀, e₀).1)) = true := by
        by_cases hn : e₀.isNode = true
        · simp [hn, hother (k₀, e₀) (List.mem_cons_self _ _) h0 hn]
        · simp [Bool.not_eq_true] at hn
          simp [hn]
      rw [List.filter_cons]
      simp only [hq, ite_false]
      exact ih hnd.2 hmr (fun p hp hpk hn => hother p (List.mem_cons_of_mem _ hp) hpk hn)

theorem not_mem_reserved_iff {k : String} :
    k ∉ reservedKeys ↔ k ≠ headKeyPtr ∧ k ≠ tailKeyPtr ∧ k ≠ charsSizeKey ∧ k ≠ sizeKey := by
  simp [reservedKeys, not_or]

theorem relNoSize_getNode_mem {st : St} {A B : AbsState} {k v : String}
    (h : RelNoSize st (A ++ (k, v) :: B)) :
    LRUCache._getNode st k = some ⟨nextKeyOf B none, lastKeyOf A none, v, k⟩ := by
  obtain ⟨hseg, htl, hhd, hjunk, hnd, hval, hstnd⟩ := h
  rw [segOK_append] at hseg
  rcases hseg with ⟨hA, hmid⟩
  rcases hmid with ⟨hk, hB⟩
  simp [LRUCache._getNode, hk]

theorem absEraseKey_not_mem {k : String} {L : AbsState} (h : k ∉ keysOf L) :
    absEraseKey k L = L := by
  induction L with
  | nil => rfl
  | cons p rest ih =>
    obtain ⟨k₀, v₀⟩ := p
    simp only [keysOf_cons, List.mem_cons, not_or] at h
    simp [absEraseKey, Ne.symm h.1, ih h.2]

theorem absEraseKey_decomp {k v : String} {A B : AbsState}
    (hA : k ∉ keysOf A) (hB : k ∉ keysOf B) :
    absEraseKey k (A ++ (k, v) :: B) = A ++ B := by
  induction A with
  | nil => simp [absEraseKey, absEraseKey_not_mem hB]
  | cons p rest ih =>
    obtain ⟨k₀, v₀⟩ := p
    simp only [keysOf_cons, List.mem_cons, not_or] at hA
    simp [absEraseKey, Ne.symm hA.1, ih hA.2]

theorem absLookup_decomp {k v : String} {A B : AbsState}
    (hA : k ∉ keysOf A) :
    absLookup k (A ++ (k, v) :: B) = some v := by
  induction A with
  | nil => simp [absLookup]
  | cons p rest ih =>
    obtain ⟨k₀, v₀⟩ := p
    simp only [keysOf_cons, List.mem_cons, not_or] at hA
    simpa [absLookup, List.filter_cons, Ne.symm hA.1] using ih hA.2

theorem absLookup_not_mem {k : String} {L : AbsState} (h : k ∉ keysOf L) :
    absLookup k L = none := by
  induction L with
  | nil => rfl
  | cons p rest ih =>
    obtain ⟨k₀, v₀⟩ := p
    simp only [keysOf_cons, List.mem_cons, not_or] at h
    simpa [absLookup, List.filter_cons, Ne.symm h.1] using ih h.2

theorem absMem_iff {k : String} {L : AbsState} : absMem k L = true ↔ k ∈ keysOf L := by
  simp [absMem, keysOf, List.contains_iff_exists_mem_beq]

theorem setTail_eq {st : St} {newNode : Node} {t : String} {c : Node}
    (ht : storeGet st tailKeyPtr = some (.str t)) (htne : t ≠ "")
    (hget : LRUCache._getNode st t = some c)
    (hkey : c.key ≠ newNode.key) :
    LRUCache._setTail st newNode =
      storeSet
        (storeSet (storeSet st c.key (.node {c with prev := some newNode.key}))
          newNode.key (.node {newNode with next := some c.key, prev := none}))
        tailKeyPtr (.str newNode.key) := by
  unfold LRUCache._setTail LRUCache._getTail
  rw [ht]
  simp [htne, hget, hkey, LRUCache._setNode]

theorem removeHead_eq {st : St} {d : String} {n w : Node} {p : String}
    (hh : storeGet st headKeyPtr = some (.str d)) (hhne : d ≠ "")
    (hget : LRUCache._getNode st d = some n)
    (hprev : optKey n.prev = some p)
    (hpget : LRUCache._getNode st p = some w)
    (hkne : n.key ≠ "") :
    LRUCache._removeHead st =
      (some n,
        storeDel
          (storeSet (storeSet st w.key (.node {w with next := none}))
            headKeyPtr (.str w.key))
          n.key) := by
  unfold LRUCache._removeHead LRUCache._getHead
  rw [hh]
  simp [hhne, hget, hprev, hpget, hkne, LRUCache._setNode]

theorem setAsTop_eq_mid {st : St} {node : Node} {p q : String} {P Q : Node}
    (hprev : optKey node.prev = some p)
    (hpget : LRUCache._getNode st p = some P)
    (hnext : optKey node.next = some q)
    (hnget : LRUCache._getNode st q = some Q) :
    LRUCache.__setAsTop st node =
      LRUCache._setTail
        (storeSet (storeSet st P.key (.node {P with next := node.next}))
          Q.key (.node {Q with prev := node.prev}))
        node := by
  unfold LRUCache.__setAsTop
  rw [hprev, hnext]
  simp [hpget, hnget, LRUCache._setNode]

theorem setAsTop_eq_last {st : St} {node : Node} {p : String} {P : Node}
    (hprev : optKey node.prev = some p)
    (hpget : LRUCache._getNode st p = some P)
    (hnext : optKey node.next = none) :
    LRUCache.__setAsTop st node =
      LRUCache._setTail
        (storeSet (storeSet st P.key (.node {P with next := node.next}))
          headKeyPtr (.str P.key))
        node := by
  unfold LRUCache.__setAsTop
  rw [hprev, hnext]
  simp [hpget, LRUCache._setNode]

theorem junkFree_storeSet_node {st : St} {L : AbsState} {kk : String} {n : Node}
    (h : junkFree st L) (hk : kk ∈ keysOf L) : junkFree (storeSet st kk (.node n)) L := by
  intro p hp hn
  rcases mem_storeSet hp with rfl | hp'
  · exact hk
  · exact h p hp' hn

theorem junkFree_storeSet_str {st : St} {L : AbsState} {kk s : String}
    (h : junkFree st L) : junkFree (storeSet st kk (.str s)) L := by
  intro p hp hn
  rcases mem_storeSet hp with rfl | hp'
  · simp [Entry.isNode] at hn
  · exact h p hp' hn

theorem junkFree_storeSet_num {st : St} {L : AbsState} {kk : String} {i : Int}
    (h : junkFree st L) : junkFree (storeSet st kk (.num i)) L := by
  intro p hp hn
  rcases mem_storeSet hp with rfl | hp'
  · simp [Entry.isNode] at hn
  · exact h p hp' hn

theorem junkFree_storeDel {st : St} {L : AbsState} {kk : String}
    (h : junkFree st L) : junkFree (storeDel st kk) L :=
  fun p hp hn => h p (mem_storeDel hp).1 hn

theorem junkFree_mono {st : St} {L L' : AbsState}
    (h : junkFree st L) (hsub : ∀ x ∈ keysOf L, x ∈ keysOf L') : junkFree st L' :=
  fun p hp hn => hsub p.1 (h p hp hn)

theorem lastKeyOf_concat (X : AbsState) (p : String × String) (pk : Option String) :
    lastKeyOf (X ++ [p]) pk = some p.1 := by
  simp [lastKeyOf, List.getLast?_concat]

theorem lastKeyOf_congr {X : AbsState} (h : X ≠ []) (pk pk' : Option String) :
    lastKeyOf X pk = lastKeyOf X pk' := by
  cases hg : X.getLast? with
  | none => exact absurd (List.getLast?_eq_none_iff.mp hg) h
  | some p => simp [lastKeyOf, hg]

theorem keysOf_middle_perm (k v : String) (A B : AbsState) :
    List.Perm (keysOf ((k, v) :: (A ++ B))) (keysOf (A ++ (k, v) :: B)) := by
  rw [keysOf_cons, keysOf_append, keysOf_append, keysOf_cons]
  exact List.perm_middle.symm

theorem setAsTop_calib {st : St} {z1 z2 k v : String}
    (h : RelNoSize st ([(z1, z2)] ++ (k, v) :: [])) :
    RelNoSize (LRUCache.__setAsTop st ⟨nextKeyOf [] none, lastKeyOf [(z1, z2)] none, v, k⟩)
        ((k, v) :: ([(z1, z2)] ++ [])) := by
  obtain ⟨hseg, htl, hhd, hjunk, hnd, hval, hstnd⟩ := h
  have hvz := hval z1 (by simp [keysOf_cons])
  have hvkk := hval k (by simp [keysOf_append, keysOf_cons])
  rcases not_mem_reserved_iff.mp hvz.2 with ⟨hz_h, hz_t, hz_c, hz_s⟩
  rcases not_mem_reserved_iff.mp hvkk.2 with ⟨hk_h, hk_t, hk_c, hk_s⟩
  have hth : tailKeyPtr ≠ headKeyPtr := by decide
  have hht : headKeyPtr ≠ tailKeyPtr := by decide
  have hzk : z1 ≠ k := by
    have h' := hnd
    simp [keysOf_append, keysOf_cons, keysOf_nil] at h'
    exact h'
  have hkz : k ≠ z1 := Ne.symm hzk
  have hz_h' := Ne.symm hz_h
  have hz_t' := Ne.symm hz_t
  have hk_h' := Ne.symm hk_h
  have hk_t' := Ne.symm hk_t
  have hz : storeGet st z1 = some (.node ⟨some k, none, z2, z1⟩) := by
    simpa [segOK, nextKeyOf, lastKeyOf] using hseg.1
  have hk : storeGet st k = some (.node ⟨none, some z1, v, k⟩) := by
    simpa [segOK, nextKeyOf, lastKeyOf] using hseg.2.1
  rw [setAsTop_eq_last (p := z1) (P := ⟨some k, none, z2, z1⟩)
    (by simp [optKey, lastKeyOf, hvz.1]) (by simp [LRUCache._getNode, hz])
    (by simp [optKey, nextKeyOf])]
  rw [setTail_eq (t := z1) (c := ⟨none, none, z2, z1⟩)
    (by simp [storeGet_storeSet_self, storeGet_storeSet_ne, hth, hz_t', nextKeyOf,
          lastKeyOf]
        simpa using htl)
    hvz.1
    (by simp [LRUCache._getNode, storeGet_storeSet_self, storeGet_storeSet_ne, hz_h,
          nextKeyOf, lastKeyOf])
    hzk]
  refine ⟨?_, ?_, ?_, ?_, ?_, ?_, ?_⟩
  · refine ⟨?_, ?_, trivial⟩
    · simp only [nextKeyOf]
      simp [storeGet_storeSet_self, storeGet_storeSet_ne, hk_t, lastKeyOf]
    · simp [storeGet_storeSet_self, storeGet_storeSet_ne, hz_t, hzk, nextKeyOf, lastKeyOf]
  · simp [storeGet_storeSet_self]
  · simp [storeGet_storeSet_self, storeGet_storeSet_ne, hht, hk_h', hz_h']
  · have hsub : ∀ x ∈ keysOf ([(z1, z2)] ++ (k, v) :: []),
        x ∈ keysOf ((k, v) :: ([(z1, z2)] ++ [])) :=
      fun x hx => (keysOf_middle_perm k v [(z1, z2)] []).symm.subset hx
    exact junkFree_storeSet_str
      (junkFree_storeSet_node
        (junkFree_storeSet_node
          (junkFree_storeSet_str
            (junkFree_storeSet_node (junkFree_mono hjunk hsub)
              (by simp [keysOf_cons]))) (by simp [keysOf_cons, keysOf_append]))
        (by simp [keysOf_cons]))
  · exact ((keysOf_middle_perm k v [(z1, z2)] []).nodup_iff).mpr hnd
  · exact fun x hx => hval x ((keysOf_middle_perm k v [(z1, z2)] []).subset hx)
  · exact keysNodup_storeSet _ _ (keysNodup_storeSet _ _ (keysNodup_storeSet _ _
      (keysNodup_storeSet _ _ (keysNodup_storeSet _ _ hstnd))))

theorem getLast?_append_of_ne_nil {α : Type} (l₁ : List α) {l₂ : List α} (h : l₂ ≠ []) :
    (l₁ ++ l₂).getLast? = l₂.getLast? := by
  induction l₁ with
  | nil => rfl
  | cons a l ih =>
    rw [List.cons_append]
    cases hg : (l ++ l₂) with
    | nil =>
      rcases List.append_eq_nil.mp hg with ⟨-, h2⟩
      exact absurd h2 h
    | cons x xs =>
      rw [List.getLast?_cons_cons]
      rw [← hg, ih]

theorem getLast?_promote {α : Type} (p : α) (X B : List α) (hB : B ≠ []) :
    (p :: (X ++ B)).getLast? = (X ++ p :: B).getLast? := by
  rw [show (p :: (X ++ B)) = [p] ++ (X ++ B) from rfl]
  rw [getLast?_append_of_ne_nil [p] (by intro hc; rcases List.append_eq_nil.mp hc with ⟨-, h2⟩; exact hB h2)]
  rw [getLast?_append_of_ne_nil X hB]
  rw [getLast?_append_of_ne_nil X (show p :: B ≠ [] by simp)]
  rw [show (p :: B) = [p] ++ B from rfl]
  rw [getLast?_append_of_ne_nil [p] hB]

theorem setAsTop_spec {st : St} {A B : AbsState} {k v : String}
    (h : RelNoSize st (A ++ (k, v) :: B)) (hA : A ≠ []) :
    RelNoSize (LRUCache.__setAsTop st ⟨nextKeyOf B none, lastKeyOf A none, v, k⟩)
        ((k, v) :: (A ++ B)) ∧
    storeGet (LRUCache.__setAsTop st ⟨nextKeyOf B none, lastKeyOf A none, v, k⟩) sizeKey
      = storeGet st sizeKey ∧
    storeGet (LRUCache.__setAsTop st ⟨nextKeyOf B none, lastKeyOf A none, v, k⟩)
      charsSizeKey = storeGet st charsSizeKey := by
  obtain ⟨A', z, rfl⟩ : ∃ A' z, A = A' ++ [z] := by
    rcases List.eq_nil_or_concat' A with h0 | ⟨A', z, h0⟩
    · exact absurd h0 hA
    · exact ⟨A', z, h0⟩
  obtain ⟨z1, z2⟩ := z
  obtain ⟨hseg, htl, hhd, hjunk, hnd, hval, hstnd⟩ := h
  have hperm := keysOf_middle_perm k v (A' ++ [(z1, z2)]) B
  have hvk : ∀ x ∈ keysOf ((A' ++ [(z1, z2)]) ++ (k, v) :: B),
      x ≠ "" ∧ x ≠ headKeyPtr ∧ x ≠ tailKeyPtr ∧ x ≠ charsSizeKey ∧ x ≠ sizeKey := by
    intro x hx
    rcases hval x hx with ⟨h1, h2⟩
    rcases not_mem_reserved_iff.mp h2 with ⟨b1, b2, b3, b4⟩
    exact ⟨h1, b1, b2, b3, b4⟩
  have hth : tailKeyPtr ≠ headKeyPtr := by decide
  have hht : headKeyPtr ≠ tailKeyPtr := by decide
  have hst : sizeKey ≠ tailKeyPtr := by decide
  have hsh : sizeKey ≠ headKeyPtr := by decide
  have hct : charsSizeKey ≠ tailKeyPtr := by decide
  have hch : charsSizeKey ≠ headKeyPtr := by decide
  have hnd0 := hnd
  simp only [keysOf_append, keysOf_cons, keysOf_nil] at hnd0
  rw [List.nodup_append] at hnd0
  obtain ⟨hndAz, hndkB, hdisj⟩ := hnd0
  rw [List.nodup_append] at hndAz
  obtain ⟨hndA', -, hdisjA'z⟩ := hndAz
  rw [List.nodup_cons] at hndkB
  obtain ⟨hkB, hndB⟩ := hndkB
  have hzk : z1 ≠ k := fun he => hdisj (a := z1) (by simp) (by simp [he])
  have hzB : z1 ∉ keysOf B := fun hc => hdisj (a := z1) (by simp) (by simp [hc])
  have hkA' : k ∉ keysOf A' := fun hc => hdisj (a := k) (by simp [hc]) (by simp)
  have hzA' : z1 ∉ keysOf A' := fun hc => hdisjA'z (a := z1) hc (by simp)
  have hA'B : ∀ x ∈ keysOf A', x ∉ keysOf B :=
    fun x hx hc => hdisj (a := x) (by simp [hx]) (by simp [hc])
  obtain ⟨hz0, hz_h, hz_t, hz_c, hz_s⟩ := hvk z1 (by simp [keysOf_append, keysOf_cons])
  obtain ⟨hk0, hk_h, hk_t, hk_c, hk_s⟩ := hvk k (by simp [keysOf_append, keysOf_cons])
  rw [segOK_append] at hseg
  obtain ⟨hsegAz, hsegMid⟩ := hseg
  rw [lastKeyOf_concat] at hsegMid
  obtain ⟨hkN, hsegB⟩ := hsegMid
  rw [segOK_append] at hsegAz
  obtain ⟨hsegA', hsegz⟩ := hsegAz
  simp only [nextKeyOf] at hsegA'
  obtain ⟨hzN, -⟩ := hsegz
  have hzN' : storeGet st z1 =
      some (.node ⟨some k, lastKeyOf A' none, z2, z1⟩) := by
    simpa [nextKeyOf] using hzN
  rw [lastKeyOf_concat]
  rcases B with _ | ⟨⟨b1, b2⟩, B'⟩
  · -- B = []
    rw [setAsTop_eq_last (p := z1) (P := ⟨some k, lastKeyOf A' none, z2, z1⟩)
        (by simp [optKey, nextKeyOf, hz0]) (by simp [LRUCache._getNode, hzN'])
        (by simp [optKey, nextKeyOf])]
    rcases A' with _ | ⟨⟨a1, a2⟩, A₂⟩
    · -- A' = []
      have htl' : storeGet st tailKeyPtr = some (.str z1) := by simpa using htl
      rw [setTail_eq (t := z1) (c := ⟨nextKeyOf [] none, lastKeyOf ([] : AbsState) none, z2, z1⟩)
          (by simp [storeGet_storeSet_self, storeGet_storeSet_ne, hth, Ne.symm hz_t, htl'])
          hz0
          (by simp [LRUCache._getNode, storeGet_storeSet_self, storeGet_storeSet_ne,
                hz_h, nextKeyOf, lastKeyOf])
          hzk]
      refine ⟨⟨?_, ?_, ?_, ?_, ?_, ?_, ?_⟩, ?_, ?_⟩
      · refine ⟨?_, ?_, trivial⟩
        · simp only [nextKeyOf, List.nil_append, List.append_nil]
          simp [storeGet_storeSet_self, storeGet_storeSet_ne, hk_t, lastKeyOf]
        · simp only [nextKeyOf, List.nil_append, List.append_nil, lastKeyOf]
          simp [storeGet_storeSet_self, storeGet_storeSet_ne, hz_t, hzk]
      · simp [storeGet_storeSet_self]
      · simp [storeGet_storeSet_self, storeGet_storeSet_ne, hht, Ne.symm hk_h, Ne.symm hz_h]
      · have hsub : ∀ x ∈ keysOf (([] ++ [(z1, z2)]) ++ (k, v) :: []),
            x ∈ keysOf ((k, v) :: (([] ++ [(z1, z2)]) ++ [])) :=
          fun x hx => hperm.symm.subset hx
        exact junkFree_storeSet_str
          (junkFree_storeSet_node
            (junkFree_storeSet_node
              (junkFree_storeSet_str
                (junkFree_storeSet_node (junkFree_mono hjunk hsub)
                  (by simp [keysOf_cons]))) (by simp [keysOf_cons, keysOf_append]))
            (by simp [keysOf_cons]))
      · exact hperm.nodup_iff.mpr hnd
      · exact fun x hx => hval x (hperm.subset hx)
      · exact keysNodup_storeSet _ _ (keysNodup_storeSet _ _ (keysNodup_storeSet _ _
          (keysNodup_storeSet _ _ (keysNodup_storeSet _ _ hstnd))))
      · simp [storeGet_storeSet_ne, hst, Ne.symm hk_s, Ne.symm hz_s, hsh]
      · simp [storeGet_storeSet_ne, hct, Ne.symm hk_c, Ne.symm hz_c, hch]
    · -- A' = (a1, a2) :: A₂
      have htl' : storeGet st tailKeyPtr = some (.str a1) := by simpa using htl
      obtain ⟨haN, hsegA₂⟩ := hsegA'
      obtain ⟨ha0, ha_h, ha_t, ha_c, ha_s⟩ := hvk a1 (by simp [keysOf_append, keysOf_cons])
      have ha1z : a1 ≠ z1 := fun he => hzA' (by rw [← he]; simp [keysOf_cons])
      have ha1k : a1 ≠ k := fun he => hkA' (by rw [← he]; simp [keysOf_cons])
      have ha1A₂ : a1 ∉ keysOf A₂ := by
        rw [keysOf_cons, List.nodup_cons] at hndA'
        exact hndA'.1
      rw [setTail_eq (t := a1) (c := ⟨nextKeyOf A₂ (some z1), none, a2, a1⟩)
          (by simp [storeGet_storeSet_self, storeGet_storeSet_ne, hth, Ne.symm ha_t,
                Ne.symm hz_t, htl'])
          ha0
          (by simp [LRUCache._getNode, storeGet_storeSet_self, storeGet_storeSet_ne,
                ha_h, ha1z, haN])
          ha1k]
      refine ⟨⟨?_, ?_, ?_, ?_, ?_, ?_, ?_⟩, ?_, ?_⟩
      · refine ⟨?_, ?_⟩
        · simp only [nextKeyOf, List.cons_append, List.append_nil]
          simp [storeGet_storeSet_self, storeGet_storeSet_ne, hk_t]
        · simp only [List.cons_append, List.append_nil]
          rw [segOK_cons_iff]
          refine ⟨?_, ?_⟩
          · rw [nextKeyOf_append]
            simp only [nextKeyOf]
            simp [storeGet_storeSet_self, storeGet_storeSet_ne, ha_t, ha1k]
          · rw [segOK_append]
            refine ⟨?_, ?_⟩
            · simp only [nextKeyOf]
              refine segOK_congr ?_ hsegA₂
              intro kk hkk
              obtain ⟨hx0, hx_h, hx_t, hx_c, hx_s⟩ :=
                hvk kk (by simp [keysOf_append, keysOf_cons]; tauto)
              have hkkz : kk ≠ z1 := fun he => hzA' (by rw [← he]; simp [keysOf_cons, hkk])
              have hkkk : kk ≠ k := fun he => hkA' (by rw [← he]; simp [keysOf_cons, hkk])
              have hkka : kk ≠ a1 := fun he => ha1A₂ (he ▸ hkk)
              simp [storeGet_storeSet_ne, hx_t, hx_h, hkkz, hkkk, hkka]
            · simp only [segOK, nextKeyOf]
              refine ⟨?_, trivial⟩
              rw [lastKeyOf_cons]
              simp [storeGet_storeSet_self, storeGet_storeSet_ne, hz_t, hzk, Ne.symm ha1z, hz_h]
      · simp [storeGet_storeSet_self]
      · rw [storeGet_storeSet_ne _ _ hht, storeGet_storeSet_ne _ _ (Ne.symm hk_h),
          storeGet_storeSet_ne _ _ (Ne.symm ha_h), storeGet_storeSet_self]
        have hgl2 : ((k, v) :: (((a1, a2) :: A₂ ++ [(z1, z2)]) ++ ([] : AbsState))).getLast?
            = some (z1, z2) := by
          rw [List.append_nil]
          rw [show ((k, v) :: (((a1, a2) :: A₂) ++ [(z1, z2)]) : AbsState)
              = ((k, v) :: (a1, a2) :: A₂) ++ [(z1, z2)] by simp]
          exact List.getLast?_concat _
        rw [hgl2]
        simp
      · have hsub : ∀ x ∈ keysOf (((a1, a2) :: A₂ ++ [(z1, z2)]) ++ (k, v) :: []),
            x ∈ keysOf ((k, v) :: (((a1, a2) :: A₂ ++ [(z1, z2)]) ++ [])) :=
          fun x hx => hperm.symm.subset hx
        exact junkFree_storeSet_str
          (junkFree_storeSet_node
            (junkFree_storeSet_node
              (junkFree_storeSet_str
                (junkFree_storeSet_node (junkFree_mono hjunk hsub)
                  (by simp [keysOf_cons, keysOf_append])))
              (by simp [keysOf_cons, keysOf_append]))
            (by simp [keysOf_cons]))
      · exact hperm.nodup_iff.mpr hnd
      · exact fun x hx => hval x (hperm.subset hx)
      · exact keysNodup_storeSet _ _ (keysNodup_storeSet _ _ (keysNodup_storeSet _ _
          (keysNodup_storeSet _ _ (keysNodup_storeSet _ _ hstnd))))
      · simp [storeGet_storeSet_ne, hst, Ne.symm hk_s, Ne.symm ha_s, hsh, Ne.symm hz_s]
      · simp [storeGet_storeSet_ne, hct, Ne.symm hk_c, Ne.symm ha_c, hch, Ne.symm hz_c]
  · -- B = (b1, b2) :: B'
    obtain ⟨hbN, hsegB'⟩ := hsegB
    obtain ⟨hb0, hb_h, hb_t, hb_c, hb_s⟩ := hvk b1 (by simp [keysOf_append, keysOf_cons])
    have hb1k : b1 ≠ k := fun he => hkB (by rw [← he]; simp [keysOf_cons])
    have hb1z : b1 ≠ z1 := fun he => hzB (by rw [← he]; simp [keysOf_cons])
    have hb1B' : b1 ∉ keysOf B' := by
      rw [keysOf_cons, List.nodup_cons] at hndB
      exact hndB.1
    rw [setAsTop_eq_mid (p := z1) (P := ⟨some k, lastKeyOf A' none, z2, z1⟩)
        (q := b1) (Q := ⟨nextKeyOf B' none, some k, b2, b1⟩)
        (by simp [optKey, nextKeyOf, hz0]) (by simp [LRUCache._getNode, hzN'])
        (by simp [optKey, nextKeyOf, hb0]) (by simp [LRUCache._getNode, hbN])]
    rcases A' with _ | ⟨⟨a1, a2⟩, A₂⟩
    · -- A' = []
      have htl' : storeGet st tailKeyPtr = some (.str z1) := by simpa using htl
      rw [setTail_eq (t := z1)
          (c := ⟨nextKeyOf ((b1, b2) :: B') none, lastKeyOf ([] : AbsState) none, z2, z1⟩)
          (by simp [storeGet_storeSet_self, storeGet_storeSet_ne, hth, Ne.symm hz_t,
                Ne.symm hb_t, htl'])
          hz0
          (by simp [LRUCache._getNode, storeGet_storeSet_self, storeGet_storeSet_ne,
                hz_h, Ne.symm hb1z, nextKeyOf, lastKeyOf])
          hzk]
      refine ⟨⟨?_, ?_, ?_, ?_, ?_, ?_, ?_⟩, ?_, ?_⟩
      · refine ⟨?_, ?_⟩
        · simp only [nextKeyOf, List.nil_append, List.singleton_append]
          simp [storeGet_storeSet_self, storeGet_storeSet_ne, hk_t]
        · simp only [List.nil_append, List.singleton_append]
          rw [segOK_cons_iff]
          refine ⟨?_, ?_⟩
          · simp only [nextKeyOf, lastKeyOf]
            simp [storeGet_storeSet_self, storeGet_storeSet_ne, hz_t, hzk]
          · rw [segOK_cons_iff]
            refine ⟨?_, ?_⟩
            · simp [storeGet_storeSet_self, storeGet_storeSet_ne, hb_t, hb1k, hb1z]
            · refine segOK_congr ?_ hsegB'
              intro kk hkk
              obtain ⟨hx0, hx_h, hx_t, hx_c, hx_s⟩ :=
                hvk kk (by simp [keysOf_append, keysOf_cons]; tauto)
              have hkkz : kk ≠ z1 := fun he => hzB (by rw [← he]; simp [keysOf_cons, hkk])
              have hkkk : kk ≠ k := fun he => hkB (by rw [← he]; simp [keysOf_cons, hkk])
              have hkkb : kk ≠ b1 := fun he => hb1B' (he ▸ hkk)
              simp [storeGet_storeSet_ne, hx_t, hx_h, hkkz, hkkk, hkkb]
      · simp [storeGet_storeSet_self]
      · rw [storeGet_storeSet_ne _ _ hht, storeGet_storeSet_ne _ _ (Ne.symm hk_h),
          storeGet_storeSet_ne _ _ (Ne.symm hz_h), storeGet_storeSet_ne _ _ (Ne.symm hb_h),
          storeGet_storeSet_ne _ _ (Ne.symm hz_h), hhd]
        simp only [List.nil_append]
        rw [getLast?_promote (k, v) [(z1, z2)] ((b1, b2) :: B') (by simp)]
      · have hsub : ∀ x ∈ keysOf (([] ++ [(z1, z2)]) ++ (k, v) :: (b1, b2) :: B'),
            x ∈ keysOf ((k, v) :: (([] ++ [(z1, z2)]) ++ (b1, b2) :: B')) :=
          fun x hx => hperm.symm.subset hx
        exact junkFree_storeSet_str
          (junkFree_storeSet_node
            (junkFree_storeSet_node
              (junkFree_storeSet_node
                (junkFree_storeSet_node (junkFree_mono hjunk hsub)
                  (by simp [keysOf_cons, keysOf_append]))
                (by simp [keysOf_cons, keysOf_append]))
              (by simp [keysOf_cons, keysOf_append]))
            (by simp [keysOf_cons]))
      · exact hperm.nodup_iff.mpr hnd
      · exact fun x hx => hval x (hperm.subset hx)
      · exact keysNodup_storeSet _ _ (keysNodup_storeSet _ _ (keysNodup_storeSet _ _
          (keysNodup_storeSet _ _ (keysNodup_storeSet _ _ hstnd))))
      · simp [storeGet_storeSet_ne, hst, Ne.symm hk_s, Ne.symm hz_s, hsh, Ne.symm hb_s]
      · simp [storeGet_storeSet_ne, hct, Ne.symm hk_c, Ne.symm hz_c, hch, Ne.symm hb_c]
    · -- A' = (a1, a2) :: A₂
      have htl' : storeGet st tailKeyPtr = some (.str a1) := by simpa using htl
      obtain ⟨haN, hsegA₂⟩ := hsegA'
      obtain ⟨ha0, ha_h, ha_t, ha_c, ha_s⟩ := hvk a1 (by simp [keysOf_append, keysOf_cons])
      have ha1z : a1 ≠ z1 := fun he => hzA' (by rw [← he]; simp [keysOf_cons])
      have ha1k : a1 ≠ k := fun he => hkA' (by rw [← he]; simp [keysOf_cons])
      have ha1b : a1 ≠ b1 := fun he =>
        hdisj (a := a1) (by simp [keysOf_cons]) (by rw [he]; simp [keysOf_cons])
      have ha1A₂ : a1 ∉ keysOf A₂ := by
        rw [keysOf_cons, List.nodup_cons] at hndA'
        exact hndA'.1
      rw [setTail_eq (t := a1) (c := ⟨nextKeyOf A₂ (some z1), none, a2, a1⟩)
          (by simp [storeGet_storeSet_self, storeGet_storeSet_ne, hth, Ne.symm ha_t,
                Ne.symm hb_t, Ne.symm hz_t, htl'])
          ha0
          (by simp [LRUCache._getNode, storeGet_storeSet_self, storeGet_storeSet_ne,
                ha_h, ha1z, ha1b, haN])
          ha1k]
      refine ⟨⟨?_, ?_, ?_, ?_, ?_, ?_, ?_⟩, ?_, ?_⟩
      · refine ⟨?_, ?_⟩
        · simp only [nextKeyOf, List.cons_append]
          simp [storeGet_storeSet_self, storeGet_storeSet_ne, hk_t]
        · simp only [List.cons_append]
          rw [segOK_cons_iff]
          refine ⟨?_, ?_⟩
          · rw [nextKeyOf_append, nextKeyOf_append]
            simp only [nextKeyOf]
            simp [storeGet_storeSet_self, storeGet_storeSet_ne, ha_t, ha1k]
          · rw [segOK_append]
            refine ⟨?_, ?_⟩
            · rw [segOK_append]
              refine ⟨?_, ?_⟩
              · simp only [nextKeyOf]
                refine segOK_congr ?_ hsegA₂
                intro kk hkk
                obtain ⟨hx0, hx_h, hx_t, hx_c, hx_s⟩ :=
                  hvk kk (by simp [keysOf_append, keysOf_cons]; tauto)
                have hkkz : kk ≠ z1 := fun he => hzA' (by rw [← he]; simp [keysOf_cons, hkk])
                have hkkk : kk ≠ k := fun he => hkA' (by rw [← he]; simp [keysOf_cons, hkk])
                have hkka : kk ≠ a1 := fun he => ha1A₂ (he ▸ hkk)
                have hkkb : kk ≠ b1 := fun he =>
                  hA'B kk (by simp [keysOf_cons, hkk]) (by rw [he]; simp [keysOf_cons])
                simp [storeGet_storeSet_ne, hx_t, hx_h, hkkz, hkkk, hkka, hkkb]
              · simp only [segOK, nextKeyOf]
                refine ⟨?_, trivial⟩
                rw [lastKeyOf_cons]
                simp [storeGet_storeSet_self, storeGet_storeSet_ne, hz_t, hzk,
                  Ne.symm ha1z, Ne.symm hb1z]
            · rw [lastKeyOf_concat]
              rw [segOK_cons_iff]
              refine ⟨?_, ?_⟩
              · simp [storeGet_storeSet_self, storeGet_storeSet_ne, hb_t, hb1k,
                  Ne.symm ha1b, hb1z]
              · refine segOK_congr ?_ hsegB'
                intro kk hkk
                obtain ⟨hx0, hx_h, hx_t, hx_c, hx_s⟩ :=
                  hvk kk (by simp [keysOf_append, keysOf_cons]; tauto)
                have hkkz : kk ≠ z1 := fun he =>
                  hzB (by rw [← he]; simp [keysOf_cons, hkk])
                have hkkk : kk ≠ k := fun he =>
                  hkB (by rw [← he]; simp [keysOf_cons, hkk])
                have hkkb : kk ≠ b1 := fun he => hb1B' (he ▸ hkk)
                have hkka : kk ≠ a1 := fun he =>
                  hA'B a1 (by simp [keysOf_cons]) (by rw [← he]; simp [keysOf_cons, hkk])
                simp [storeGet_storeSet_ne, hx_t, hx_h, hkkz, hkkk, hkka, hkkb]
      · simp [storeGet_storeSet_self]
      · rw [storeGet_storeSet_ne _ _ hht, storeGet_storeSet_ne _ _ (Ne.symm hk_h),
          storeGet_storeSet_ne _ _ (Ne.symm ha_h), storeGet_storeSet_ne _ _ (Ne.symm hb_h),
          storeGet_storeSet_ne _ _ (Ne.symm hz_h), hhd]
        rw [getLast?_promote (k, v) ((a1, a2) :: A₂ ++ [(z1, z2)]) ((b1, b2) :: B') (by simp)]
      · have hsub : ∀ x ∈ keysOf (((a1, a2) :: A₂ ++ [(z1, z2)]) ++ (k, v) :: (b1, b2) :: B'),
            x ∈ keysOf ((k, v) :: (((a1, a2) :: A₂ ++ [(z1, z2)]) ++ (b1, b2) :: B')) :=
          fun x hx => hperm.symm.subset hx
        exact junkFree_storeSet_str
          (junkFree_storeSet_node
            (junkFree_storeSet_node
              (junkFree_storeSet_node
                (junkFree_storeSet_node (junkFree_mono hjunk hsub)
                  (by simp [keysOf_cons, keysOf_append]))
                (by simp [keysOf_cons, keysOf_append]))
              (by simp [keysOf_cons, keysOf_append]))
            (by simp [keysOf_cons]))
      · exact hperm.nodup_iff.mpr hnd
      · exact fun x hx => hval x (hperm.subset hx)
      · exact keysNodup_storeSet _ _ (keysNodup_storeSet _ _ (keysNodup_storeSet _ _
          (keysNodup_storeSet _ _ (keysNodup_storeSet _ _ hstnd))))
      · simp [storeGet_storeSet_ne, hst, Ne.symm hk_s, Ne.symm ha_s, hsh, Ne.symm hz_s,
          Ne.symm hb_s]
      · simp [storeGet_storeSet_ne, hct, Ne.symm hk_c, Ne.symm ha_c, hch, Ne.symm hz_c,
          Ne.symm hb_c]

theorem head?_append_left {α : Type} {X : List α} (Y : List α) (h : X ≠ []) :
    (X ++ Y).head? = X.head? := by
  cases X with
  | nil => exact absurd rfl h
  | cons a l => rfl

theorem absGet_not_mem {k : String} {L : AbsState} (h : k ∉ keysOf L) :
    absGet k L = L := by
  unfold absGet
  have hfil : L.filter (fun p => p.1 = k) = [] := by
    rw [List.filter_eq_nil_iff.mpr]
    intro p hp
    simp only [decide_eq_true_eq]
    intro he
    exact h (he ▸ List.mem_map_of_mem Prod.fst hp)
  rw [hfil]
  rfl

theorem absGet_decomp {k v : String} {A B : AbsState}
    (hA : k ∉ keysOf A) (hB : k ∉ keysOf B) :
    absGet k (A ++ (k, v) :: B) = (k, v) :: (A ++ B) := by
  unfold absGet
  have hfilA : A.filter (fun p => p.1 = k) = [] := by
    rw [List.filter_eq_nil_iff.mpr]
    intro p hp
    simp only [decide_eq_true_eq]
    intro he
    exact hA (he ▸ List.mem_map_of_mem Prod.fst hp)
  rw [List.filter_append, hfilA, List.nil_append, List.filter_cons]
  simp only [decide_True, if_pos]
  rw [absEraseKey_decomp hA hB]
  rfl

theorem evictedBetween_self {st : St} (hnd : (st.map Prod.fst).Nodup) :
    evictedBetween st st = [] := by
  apply evictedBetween_nil_of_live
  intro p hp hn
  have := storeGet_of_mem hnd hp
  cases he : p.2 with
  | node n => exact isLive_of_node (by rw [← he]; exact this)
  | str s => rw [he] at hn; simp [Entry.isNode] at hn
  | num i => rw [he] at hn; simp [Entry.isNode] at hn

theorem evictedBetween_nil_of_relpair {pre post : St} {L L' : AbsState}
    (hpre : RelNoSize pre L) (hpost : RelNoSize post L')
    (hsub : ∀ kk ∈ keysOf L, kk ∈ keysOf L') :
    evictedBetween pre post = [] := by
  apply evictedBetween_nil_of_live
  intro p hp hn
  rcases segOK_mem_node hpost.1 (hsub p.1 (hpre.2.2.2.1 p hp hn)) with ⟨n, hg⟩
  exact isLive_of_node hg

theorem setTail_insert_spec {st : St} {L : AbsState} {k v : String}
    (h : RelNoSize st L) (hL : L ≠ []) (hk : k ∉ keysOf L)
    (hk0 : k ≠ "") (hkr : k ∉ reservedKeys) :
    RelNoSize (LRUCache._setTail st ⟨none, none, v, k⟩) ((k, v) :: L) ∧
    storeGet (LRUCache._setTail st ⟨none, none, v, k⟩) sizeKey = storeGet st sizeKey ∧
    storeGet (LRUCache._setTail st ⟨none, none, v, k⟩) charsSizeKey
      = storeGet st charsSizeKey := by
  obtain ⟨hseg, htl, hhd, hjunk, hnd, hval, hstnd⟩ := h
  rcases L with _ | ⟨⟨a1, a2⟩, L''⟩
  · exact absurd rfl hL
  rcases not_mem_reserved_iff.mp hkr with ⟨hk_h, hk_t, hk_c, hk_s⟩
  obtain ⟨ha0, ha2⟩ := hval a1 (by simp [keysOf_cons])
  rcases not_mem_reserved_iff.mp ha2 with ⟨ha_h, ha_t, ha_c, ha_s⟩
  have hth : tailKeyPtr ≠ headKeyPtr := by decide
  have hht : headKeyPtr ≠ tailKeyPtr := by decide
  have hst : sizeKey ≠ tailKeyPtr := by decide
  have hsh : sizeKey ≠ headKeyPtr := by decide
  have hct : charsSizeKey ≠ tailKeyPtr := by decide
  have hch : charsSizeKey ≠ headKeyPtr := by decide
  have hka : k ≠ a1 := fun he => hk (by rw [he]; simp [keysOf_cons])
  have ha1L'' : a1 ∉ keysOf L'' := by
    rw [keysOf_cons, List.nodup_cons] at hnd
    exact hnd.1
  have hkL'' : k ∉ keysOf L'' := fun hc => hk (by simp [keysOf_cons, hc])
  obtain ⟨haN, hsegL''⟩ := hseg
  have htl' : storeGet st tailKeyPtr = some (.str a1) := by simpa using htl
  rw [setTail_eq (t := a1) (c := ⟨nextKeyOf L'' none, none, a2, a1⟩) htl' ha0
      (by simp [LRUCache._getNode, haN]) (Ne.symm hka)]
  refine ⟨⟨?_, ?_, ?_, ?_, ?_, ?_, ?_⟩, ?_, ?_⟩
  · refine ⟨?_, ?_, ?_⟩
    · simp only [nextKeyOf]
      simp [storeGet_storeSet_self, storeGet_storeSet_ne, hk_t]
    · simp [storeGet_storeSet_self, storeGet_storeSet_ne, ha_t, Ne.symm hka]
    · refine segOK_congr ?_ hsegL''
      intro kk hkk
      obtain ⟨hx0, hx2⟩ := hval kk (by simp [keysOf_cons, hkk])
      rcases not_mem_reserved_iff.mp hx2 with ⟨hx_h, hx_t, hx_c, hx_s⟩
      have hkkk : kk ≠ k := fun he => hkL'' (he ▸ hkk)
      have hkka : kk ≠ a1 := fun he => ha1L'' (he ▸ hkk)
      simp [storeGet_storeSet_ne, hx_t, hkkk, hkka]
  · simp [storeGet_storeSet_self]
  · rw [storeGet_storeSet_ne _ _ hht, storeGet_storeSet_ne _ _ (Ne.symm hk_h),
      storeGet_storeSet_ne _ _ (Ne.symm ha_h), hhd]
    rfl
  · exact junkFree_storeSet_str
      (junkFree_storeSet_node
        (junkFree_storeSet_node
          (junkFree_mono hjunk (fun x hx => by simp [keysOf_cons] at hx ⊢; tauto))
          (by simp [keysOf_cons]))
        (by simp [keysOf_cons]))
  · rw [keysOf_cons, List.nodup_cons]
    exact ⟨hk, hnd⟩
  · intro x hx
    rw [keysOf_cons, List.mem_cons] at hx
    rcases hx with rfl | hx
    · exact ⟨hk0, hkr⟩
    · exact hval x hx
  · exact keysNodup_storeSet _ _ (keysNodup_storeSet _ _ (keysNodup_storeSet _ _ hstnd))
  · simp [storeGet_storeSet_ne, hst, Ne.symm hk_s, Ne.symm ha_s]
  · simp [storeGet_storeSet_ne, hct, Ne.symm hk_c, Ne.symm ha_c]

theorem removeHead_spec {st : St} {M : AbsState} {lk lv : String}
    (h : RelNoSize st (M ++ [(lk, lv)])) (hM : M ≠ []) :
    (LRUCache._removeHead st).1 = some ⟨none, lastKeyOf M none, lv, lk⟩ ∧
    RelNoSize (LRUCache._removeHead st).2 M ∧
    storeGet (LRUCache._removeHead st).2 sizeKey = storeGet st sizeKey ∧
    storeGet (LRUCache._removeHead st).2 charsSizeKey = storeGet st charsSizeKey ∧
    storeGet (LRUCache._removeHead st).2 lk = none := by
  obtain ⟨M₂, w, rfl⟩ : ∃ M₂ w, M = M₂ ++ [w] := by
    rcases List.eq_nil_or_concat' M with h0 | ⟨M₂, w, h0⟩
    · exact absurd h0 hM
    · exact ⟨M₂, w, h0⟩
  obtain ⟨w1, w2⟩ := w
  obtain ⟨hseg, htl, hhd, hjunk, hnd, hval, hstnd⟩ := h
  have hth : tailKeyPtr ≠ headKeyPtr := by decide
  have hht : headKeyPtr ≠ tailKeyPtr := by decide
  have hst : sizeKey ≠ tailKeyPtr := by decide
  have hsh : sizeKey ≠ headKeyPtr := by decide
  have hct : charsSizeKey ≠ tailKeyPtr := by decide
  have hch : charsSizeKey ≠ headKeyPtr := by decide
  obtain ⟨hl0, hl2⟩ := hval lk (by simp [keysOf_append, keysOf_cons])
  rcases not_mem_reserved_iff.mp hl2 with ⟨hl_h, hl_t, hl_c, hl_s⟩
  obtain ⟨hw0, hw2⟩ := hval w1 (by simp [keysOf_append, keysOf_cons])
  rcases not_mem_reserved_iff.mp hw2 with ⟨hw_h, hw_t, hw_c, hw_s⟩
  have hnd0 := hnd
  simp only [keysOf_append, keysOf_cons, keysOf_nil] at hnd0
  rw [List.nodup_append] at hnd0
  obtain ⟨hndMw, -, hdisj⟩ := hnd0
  rw [List.nodup_append] at hndMw
  obtain ⟨hndM₂, -, hdisjM₂w⟩ := hndMw
  have hwl : w1 ≠ lk := fun he => hdisj (a := w1) (by simp) (by simp [he])
  have hlM₂ : lk ∉ keysOf M₂ := fun hc => hdisj (a := lk) (by simp [hc]) (by simp)
  have hwM₂ : w1 ∉ keysOf M₂ := fun hc => hdisjM₂w (a := w1) hc (by simp)
  rw [segOK_append] at hseg
  obtain ⟨hsegMw, hsegLk⟩ := hseg
  rw [lastKeyOf_concat] at hsegLk
  obtain ⟨hlkN, -⟩ := hsegLk
  have hlkN' : storeGet st lk = some (.node ⟨none, some w1, lv, lk⟩) := by
    simpa [nextKeyOf] using hlkN
  rw [segOK_append] at hsegMw
  obtain ⟨hsegM₂, hsegw⟩ := hsegMw
  obtain ⟨hwN, -⟩ := hsegw
  have hwN' : storeGet st w1 =
      some (.node ⟨some lk, lastKeyOf M₂ none, w2, w1⟩) := by
    simpa [nextKeyOf] using hwN
  have hhd' : storeGet st headKeyPtr = some (.str lk) := by
    rw [hhd]
    rw [show ((M₂ ++ [(w1, w2)]) ++ [(lk, lv)] : AbsState).getLast?
        = some (lk, lv) from List.getLast?_concat _]
    rfl
  rw [removeHead_eq (d := lk) (n := ⟨none, some w1, lv, lk⟩)
      (w := ⟨some lk, lastKeyOf M₂ none, w2, w1⟩) (p := w1)
      hhd' hl0 (by simp [LRUCache._getNode, hlkN'])
      (by simp [optKey, hw0]) (by simp [LRUCache._getNode, hwN']) hl0]
  rw [lastKeyOf_concat]
  refine ⟨rfl, ⟨?_, ?_, ?_, ?_, ?_, ?_, ?_⟩, ?_, ?_, ?_⟩
  · rw [segOK_append]
    refine ⟨?_, ?_⟩
    · refine segOK_congr ?_ hsegM₂
      intro kk hkk
      obtain ⟨hx0, hx2⟩ := hval kk (by simp [keysOf_append, keysOf_cons, hkk])
      rcases not_mem_reserved_iff.mp hx2 with ⟨hx_h, hx_t, hx_c, hx_s⟩
      have hkkw : kk ≠ w1 := fun he => hwM₂ (he ▸ hkk)
      have hkkl : kk ≠ lk := fun he => hlM₂ (he ▸ hkk)
      simp [storeGet_storeDel_ne, storeGet_storeSet_ne, hkkl, hx_h, hkkw]
    · simp only [segOK, nextKeyOf]
      refine ⟨?_, trivial⟩
      simp [storeGet_storeDel_ne, storeGet_storeSet_ne, storeGet_storeSet_self,
        hwl, hw_h]
  · rw [storeGet_storeDel_ne _ (Ne.symm hl_t), storeGet_storeSet_ne _ _ hth,
      storeGet_storeSet_ne _ _ (Ne.symm hw_t), htl]
    rw [head?_append_left _ (by simp)]
  · rw [storeGet_storeDel_ne _ (Ne.symm hl_h), storeGet_storeSet_self]
    rw [show ((M₂ ++ [(w1, w2)] : AbsState)).getLast? = some (w1, w2) from
      List.getLast?_concat _]
    rfl
  · intro p hp hn
    rcases mem_storeDel hp with ⟨hp1, hp2⟩
    rcases mem_storeSet hp1 with rfl | hp3
    · simp [Entry.isNode] at hn
    rcases mem_storeSet hp3 with rfl | hp4
    · simp [keysOf_append, keysOf_cons]
    · have hthis : p.1 ∈ keysOf (M₂ ++ [(w1, w2)]) ++ keysOf [(lk, lv)] := by
        rw [← keysOf_append]
        exact hjunk p hp4 hn
      rcases List.mem_append.mp hthis with h1 | h1
      · exact h1
      · have h2 : p.1 = lk := by
          simpa [keysOf_cons, keysOf_nil] using h1
        exact absurd h2 hp2
  · have : (keysOf ((M₂ ++ [(w1, w2)]) ++ [(lk, lv)])).Nodup := hnd
    simp only [keysOf_append] at this ⊢
    exact ((List.nodup_append.mp this).1)
  · intro x hx
    apply hval
    rw [keysOf_append]
    exact List.mem_append_left _ hx
  · exact keysNodup_storeDel _ (keysNodup_storeSet _ _ (keysNodup_storeSet _ _ hstnd))
  · simp [storeGet_storeDel_ne, storeGet_storeSet_ne, Ne.symm hl_s, hsh, Ne.symm hw_s]
  · simp [storeGet_storeDel_ne, storeGet_storeSet_ne, Ne.symm hl_c, hch, Ne.symm hw_c]
  · exact storeGet_storeDel_self _ _

theorem keysOf_value_irrel (A B : AbsState) (k v v' : String) :
    keysOf (A ++ (k, v') :: B) = keysOf (A ++ (k, v) :: B) := by
  simp [keysOf_append, keysOf_cons]

theorem valueUpdate_spec {st : St} {A B : AbsState} {k v u : String}
    (h : RelNoSize st (A ++ (k, v) :: B)) :
    RelNoSize (LRUCache._setNode st k ⟨nextKeyOf B none, lastKeyOf A none, u, k⟩)
      (A ++ (k, u) :: B) ∧
    storeGet (LRUCache._setNode st k ⟨nextKeyOf B none, lastKeyOf A none, u, k⟩) sizeKey
      = storeGet st sizeKey ∧
    storeGet (LRUCache._setNode st k ⟨nextKeyOf B none, lastKeyOf A none, u, k⟩)
      charsSizeKey = storeGet st charsSizeKey := by
  obtain ⟨hseg, htl, hhd, hjunk, hnd, hval, hstnd⟩ := h
  obtain ⟨hk0, hk2⟩ := hval k (by simp [keysOf_append, keysOf_cons])
  rcases not_mem_reserved_iff.mp hk2 with ⟨hk_h, hk_t, hk_c, hk_s⟩
  have hnd0 := hnd
  simp only [keysOf_append, keysOf_cons] at hnd0
  rw [List.nodup_append] at hnd0
  obtain ⟨hndA, hndkB, hdisj⟩ := hnd0
  rw [List.nodup_cons] at hndkB
  obtain ⟨hkB, hndB⟩ := hndkB
  have hkA : k ∉ keysOf A := fun hc => hdisj (a := k) hc (by simp)
  rw [segOK_append] at hseg
  obtain ⟨hsegA, hsegMid⟩ := hseg
  obtain ⟨hkN, hsegB⟩ := hsegMid
  unfold LRUCache._setNode
  refine ⟨⟨?_, ?_, ?_, ?_, ?_, ?_, ?_⟩, ?_, ?_⟩
  · rw [segOK_append]
    refine ⟨?_, ?_⟩
    · refine segOK_congr ?_ hsegA
      intro kk hkk
      have hkkk : kk ≠ k := fun he => hkA (he ▸ hkk)
      rw [storeGet_storeSet_ne _ _ hkkk]
    · refine ⟨?_, ?_⟩
      · simp only [nextKeyOf]
        rw [storeGet_storeSet_self]
      · refine segOK_congr ?_ hsegB
        intro kk hkk
        have hkkk : kk ≠ k := fun he => hkB (he ▸ hkk)
        rw [storeGet_storeSet_ne _ _ hkkk]
  · rw [storeGet_storeSet_ne _ _ (Ne.symm hk_t), htl]
    cases A <;> simp
  · rw [storeGet_storeSet_ne _ _ (Ne.symm hk_h), hhd]
    cases hB : B.eq_nil_or_concat' with
    | inl h0 =>
      subst h0
      rw [show (A ++ [(k, v)] : AbsState).getLast? = some (k, v) from List.getLast?_concat _,
        show (A ++ [(k, u)] : AbsState).getLast? = some (k, u) from List.getLast?_concat _]
      rfl
    | inr h0 =>
      obtain ⟨B₂, q, rfl⟩ := h0
      rw [show (A ++ (k, v) :: (B₂ ++ [q]) : AbsState) = (A ++ (k, v) :: B₂) ++ [q] by simp,
        show (A ++ (k, u) :: (B₂ ++ [q]) : AbsState) = (A ++ (k, u) :: B₂) ++ [q] by simp,
        List.getLast?_concat, List.getLast?_concat]
  · rw [show junkFree (storeSet st k (Entry.node ⟨nextKeyOf B none, lastKeyOf A none, u, k⟩))
        (A ++ (k, u) :: B) ↔ _ from Iff.rfl]
    intro p hp hn
    rw [keysOf_value_irrel A B k v u]
    rcases mem_storeSet hp with rfl | hp'
    · simp [keysOf_append, keysOf_cons]
    · exact hjunk p hp' hn
  · rw [keysOf_value_irrel A B k v u]
    exact hnd
  · intro x hx
    rw [keysOf_value_irrel A B k v u] at hx
    exact hval x hx
  · exact keysNodup_storeSet _ _ hstnd
  · rw [storeGet_storeSet_ne _ _ (Ne.symm hk_s)]
  · rw [storeGet_storeSet_ne _ _ (Ne.symm hk_c)]

theorem initialize_spec {st : St} {k v : String}
    (h : Rel st []) (hk0 : k ≠ "") (hkr : k ∉ reservedKeys) (est : Int) :
    Rel (LRUCache._increaseCharsSize
          (LRUCache._increaseSize ( LRUCache._initialize st ⟨none, none, v, k⟩)) est)
        [(k, v)] := by
  obtain ⟨⟨hseg, htl, hhd, hjunk, hnd, hval, hstnd⟩, hsz⟩ := h
  rcases not_mem_reserved_iff.mp hkr with ⟨hk_h, hk_t, hk_c, hk_s⟩
  have hth : tailKeyPtr ≠ headKeyPtr := by decide
  have hht : headKeyPtr ≠ tailKeyPtr := by decide
  have hts : tailKeyPtr ≠ sizeKey := by decide
  have htc : tailKeyPtr ≠ charsSizeKey := by decide
  have hhs : headKeyPtr ≠ sizeKey := by decide
  have hhc : headKeyPtr ≠ charsSizeKey := by decide
  have hcs : charsSizeKey ≠ sizeKey := by decide
  have hsc : sizeKey ≠ charsSizeKey := by decide
  have hst : sizeKey ≠ tailKeyPtr := by decide
  have hsh : sizeKey ≠ headKeyPtr := by decide
  have hct : charsSizeKey ≠ tailKeyPtr := by decide
  have hch : charsSizeKey ≠ headKeyPtr := by decide
  have hsz' : storeGet st sizeKey = none := by simpa using hsz
  have hsz0 : LRUCache._getSize
      (storeSet (storeSet (storeSet (storeSet st tailKeyPtr (Entry.str k))
        headKeyPtr (Entry.str k)) charsSizeKey
        (Entry.num LRUCache._getMetadataEstimatedCharsSize)) k
        (Entry.node ⟨none, none, v, k⟩)) = 0 := by
    unfold LRUCache._getSize
    rw [storeGet_storeSet_ne _ _ (Ne.symm hk_s), storeGet_storeSet_ne _ _ (Ne.symm hcs),
      storeGet_storeSet_ne _ _ (Ne.symm hhs), storeGet_storeSet_ne _ _ (Ne.symm hts), hsz']
  simp only [LRUCache._increaseCharsSize, LRUCache._increaseSize, LRUCache._initialize,
    LRUCache._setNode]
  rw [hsz0]
  refine ⟨⟨?_, ?_, ?_, ?_, ?_, ?_, ?_⟩, ?_⟩
  · refine ⟨?_, trivial⟩
    simp only [nextKeyOf]
    simp [storeGet_storeSet_self, storeGet_storeSet_ne, hk_c, hk_s]
  · simp [storeGet_storeSet_self, storeGet_storeSet_ne, htc, hts, Ne.symm hk_t, hth]
  · simp [storeGet_storeSet_self, storeGet_storeSet_ne, hhc, hhs, Ne.symm hk_h]
  · refine junkFree_storeSet_num (junkFree_storeSet_num (junkFree_storeSet_node
      (junkFree_storeSet_num (junkFree_storeSet_str (junkFree_storeSet_str
        (junkFree_mono hjunk (fun x hx => absurd hx (by simp [keysOf_nil])))))) ?_))
    simp [keysOf_cons]
  · simp [keysOf_cons, keysOf_nil]
  · intro x hx
    rw [keysOf_cons] at hx
    rcases List.mem_cons.mp hx with rfl | hx2
    · exact ⟨hk0, hkr⟩
    · simp [keysOf_nil] at hx2
  · exact keysNodup_storeSet _ _ (keysNodup_storeSet _ _ (keysNodup_storeSet _ _
      (keysNodup_storeSet _ _ (keysNodup_storeSet _ _ (keysNodup_storeSet _ _ hstnd)))))
  · simp [storeGet_storeSet_self, storeGet_storeSet_ne, hsc]

theorem length_promote (k v : String) (A B : AbsState) :
    ((k, v) :: (A ++ B)).length = (A ++ (k, v) :: B).length := by
  simp [List.length_append]
  omega

theorem get_spec {st : St} {L : AbsState} {k : String}
    (h : Rel st L) (hk0 : k ≠ "") (hkr : k ∉ reservedKeys) :
    (LRUCache.get st k).1 = absLookup k L ∧
    Rel (LRUCache.get st k).2 (absGet k L) ∧
    evictedBetween st (LRUCache.get st k).2 = [] ∧
    (absGet k L).length = L.length := by
  obtain ⟨hrel, hsz⟩ := h
  have hstnd : (st.map Prod.fst).Nodup := hrel.2.2.2.2.2.2
  by_cases hmem : k ∈ keysOf L
  · obtain ⟨v, A, B, rfl⟩ := keysOf_decomp hmem
    have hnd := hrel.2.2.2.2.1
    have hnd0 := hnd
    simp only [keysOf_append, keysOf_cons] at hnd0
    rw [List.nodup_append] at hnd0
    obtain ⟨hndA, hndkB, hdisj⟩ := hnd0
    rw [List.nodup_cons] at hndkB
    have hkA : k ∉ keysOf A := fun hc => hdisj (a := k) hc (by simp)
    have hkB : k ∉ keysOf B := hndkB.1
    have hget := relNoSize_getNode_mem hrel
    have htl := hrel.2.1
    rcases A with _ | ⟨⟨a1, a2⟩, A'⟩
    · have htl' : storeGet st tailKeyPtr = some (.str k) := by simpa using htl
      have hres : LRUCache.get st k = (some v, st) := by
        unfold LRUCache.get
        rw [hget, htl']
        simp
      rw [hres]
      refine ⟨?_, ?_, ?_, ?_⟩
      · rw [absLookup_decomp hkA]
      · rw [absGet_decomp hkA hkB]
        exact ⟨hrel, hsz⟩
      · exact evictedBetween_self hstnd
      · rw [absGet_decomp hkA hkB]
        exact length_promote k v [] B
    · have ha1k : k ≠ a1 := fun he => hkA (by rw [he]; simp [keysOf_cons])
      have htl' : storeGet st tailKeyPtr = some (.str a1) := by simpa using htl
      have hres : LRUCache.get st k =
          (some v, LRUCache.__setAsTop st ⟨nextKeyOf B none,
            lastKeyOf ((a1, a2) :: A') none, v, k⟩) := by
        unfold LRUCache.get
        rw [hget, htl']
        simp [ha1k]
      rw [hres]
      obtain ⟨hrel', hsz', hch'⟩ := setAsTop_spec hrel (by simp)
      have hperm := keysOf_middle_perm k v ((a1, a2) :: A') B
      refine ⟨?_, ?_, ?_, ?_⟩
      · rw [absLookup_decomp hkA]
      · rw [absGet_decomp hkA hkB]
        refine ⟨hrel', ?_⟩
        rw [hsz', hsz]
        have hlen := length_promote k v ((a1, a2) :: A') B
        rw [← hlen]
        simp
      · exact evictedBetween_nil_of_relpair hrel hrel'
          (fun kk hkk => hperm.symm.subset hkk)
      · rw [absGet_decomp hkA hkB]
        exact length_promote k v ((a1, a2) :: A') B
  · have hg := relNoSize_getNode_not_mem hrel hmem
    have hres : LRUCache.get st k = (none, st) := by
      unfold LRUCache.get
      rw [hg]
    rw [hres]
    refine ⟨?_, ?_, ?_, ?_⟩
    · rw [absLookup_not_mem hmem]
    · rw [absGet_not_mem hmem]
      exact ⟨hrel, hsz⟩
    · exact evictedBetween_self hstnd
    · rw [absGet_not_mem hmem]

theorem relNoSize_storeSet_counter {st : St} {L : AbsState} {r : String} {e : Entry}
    (h : RelNoSize st L) (hr : r ∈ reservedKeys) (hrh : r ≠ headKeyPtr)
    (hrt : r ≠ tailKeyPtr) (he : e.isNode = false) :
    RelNoSize (storeSet st r e) L := by
  obtain ⟨hseg, htl, hhd, hjunk, hnd, hval, hstnd⟩ := h
  refine ⟨?_, ?_, ?_, ?_, hnd, hval, keysNodup_storeSet _ _ hstnd⟩
  · refine segOK_congr ?_ hseg
    intro kk hkk
    have hne : kk ≠ r := fun heq => (hval kk hkk).2 (heq ▸ hr)
    rw [storeGet_storeSet_ne _ _ hne]
  · rw [storeGet_storeSet_ne _ _ (Ne.symm hrt)]
    exact htl
  · rw [storeGet_storeSet_ne _ _ (Ne.symm hrh)]
    exact hhd
  · intro p hp hn
    rcases mem_storeSet hp with rfl | hp'
    · rw [he] at hn
      simp at hn
    · exact hjunk p hp' hn

theorem isLive_false_of_not_mem {st : St} {L : AbsState} {kk : String}
    (h : RelNoSize st L) (hk : kk ∉ keysOf L) : isLive st kk = false := by
  have hg := relNoSize_getNode_not_mem h hk
  unfold LRUCache._getNode at hg
  unfold isLive
  cases hs : storeGet st kk with
  | none => rfl
  | some e =>
    cases e with
    | node n => rw [hs] at hg; simp at hg
    | str s => rfl
    | num i => rfl

theorem insert_phase {st3 : St} {M : AbsState} {k v : String} {e : Int}
    (h : Rel st3 M) (hM : M ≠ []) (hk : k ∉ keysOf M)
    (hk0 : k ≠ "") (hkr : k ∉ reservedKeys) :
    Rel (LRUCache._increaseCharsSize
          (LRUCache._increaseSize (LRUCache._setTail st3 ⟨none, none, v, k⟩)) e)
        ((k, v) :: M) := by
  obtain ⟨hrel, hsz⟩ := h
  obtain ⟨hrel1, hsz1, hch1⟩ := setTail_insert_spec hrel hM hk hk0 hkr
  have hszval : storeGet (LRUCache._setTail st3 ⟨none, none, v, k⟩) sizeKey
      = some (.num (M.length : Int)) := by
    rw [hsz1, hsz]
    simp [List.isEmpty_iff, hM]
  have hs0 : LRUCache._getSize (LRUCache._setTail st3 ⟨none, none, v, k⟩)
      = (M.length : Int) := by
    unfold LRUCache._getSize
    rw [hszval]
  unfold LRUCache._increaseCharsSize LRUCache._increaseSize
  rw [hs0]
  have hrel2 : RelNoSize (storeSet (LRUCache._setTail st3 ⟨none, none, v, k⟩)
      sizeKey (.num ((M.length : Int) + 1))) ((k, v) :: M) :=
    relNoSize_storeSet_counter hrel1 (by simp [reservedKeys]) (by decide) (by decide) rfl
  refine ⟨relNoSize_storeSet_counter hrel2 (by simp [reservedKeys]) (by decide) (by decide) rfl, ?_⟩
  rw [storeGet_storeSet_ne _ _ (by decide : sizeKey ≠ charsSizeKey), storeGet_storeSet_self]
  simp

/-- `set` on an existing key, at any capacity: the existing-key path of
the source never consults the capacity or the byte counters, so no
capacity hypothesis is needed.  The key is promoted to the front of the
contents with its new value, nothing is evicted, and the contents keep
their length. -/
theorem set_mem_spec {st : St} {C : Int} {L : AbsState} {k v : String} (fuel : Nat)
    (h : Rel st L) (hk0 : k ≠ "") (hkr : k ∉ reservedKeys) (hmem : k ∈ keysOf L) :
    ∃ st', LRUCache.set ⟨C, none⟩ fuel st k v = some st' ∧
      Rel st' ((k, v) :: absEraseKey k L) ∧
      evictedBetween st st' = [] ∧
      ((k, v) :: absEraseKey k L).length = L.length := by
  obtain ⟨v0, A, B, rfl⟩ := keysOf_decomp hmem
  obtain ⟨hrel, hsz⟩ := h
  have hnd0 := hrel.2.2.2.2.1
  simp only [keysOf_append, keysOf_cons] at hnd0
  rw [List.nodup_append] at hnd0
  obtain ⟨hndA, hndkB, hdisj⟩ := hnd0
  rw [List.nodup_cons] at hndkB
  have hkA : k ∉ keysOf A := fun hc => hdisj (a := k) hc (by simp)
  have hkB : k ∉ keysOf B := hndkB.1
  have hget := relNoSize_getNode_mem hrel
  obtain ⟨hrel0, hsz0, hch0⟩ := valueUpdate_spec (u := v) hrel
  have hsetEq : LRUCache.set ⟨C, none⟩ fuel st k v =
      some (LRUCache.get (LRUCache._setNode st k
        ⟨nextKeyOf B none, lastKeyOf A none, v, k⟩) k).2 := by
    unfold LRUCache.set
    rw [hget]
  have hRel0 : Rel (LRUCache._setNode st k ⟨nextKeyOf B none, lastKeyOf A none, v, k⟩)
      (A ++ (k, v) :: B) := by
    refine ⟨hrel0, ?_⟩
    rw [hsz0, hsz]
    simp [List.length_append]
  obtain ⟨hlook, hRel', hev', hlen'⟩ := get_spec hRel0 hk0 hkr
  rw [hsetEq, absEraseKey_decomp hkA hkB]
  refine ⟨_, rfl, ?_, ?_, ?_⟩
  · rw [absGet_decomp hkA hkB] at hRel'
    exact hRel'
  · refine evictedBetween_nil_of_relpair hrel
      (by rw [absGet_decomp hkA hkB] at hRel'; exact hRel'.1) ?_
    intro kk hkk
    have h1 : kk ∈ keysOf (A ++ (k, v) :: B) := by
      rw [← keysOf_value_irrel A B k v0 v] at hkk
      exact hkk
    exact (keysOf_middle_perm k v A B).symm.subset h1
  · simp only [List.length_cons, List.length_append]
    omega

theorem set_spec {st : St} {C : Int} {L : AbsState} {k v : String} (fuel : Nat)
    (h : Rel st L) (hC : 2 ≤ C) (hlen : (L.length : Int) ≤ C)
    (hk0 : k ≠ "") (hkr : k ∉ reservedKeys) :
    ∃ st', LRUCache.set ⟨C, none⟩ fuel st k v = some st' ∧
      Rel st' (absSet C k v L).2 ∧
      evictedBetween st st' = (absSet C k v L).1 ∧
      ((absSet C k v L).2.length : Int) ≤ C := by
  by_cases hmem : k ∈ keysOf L
  · -- existing key
    obtain ⟨st', hset, hRel', hev', hlen'⟩ := set_mem_spec fuel h hk0 hkr hmem
    have habs : absSet C k v L = ([], (k, v) :: absEraseKey k L) := by
      unfold absSet
      rw [if_pos (absMem_iff.mpr hmem)]
    rw [habs]
    refine ⟨st', hset, hRel', hev', ?_⟩
    show (((k, v) :: absEraseKey k L).length : Int) ≤ C
    rw [hlen']
    exact hlen
  · -- new key
    obtain ⟨hrel, hsz⟩ := h
    have hg := relNoSize_getNode_not_mem hrel hmem
    have hmemb : absMem k L = false := by
      rw [← Bool.not_eq_true]
      intro hc
      exact hmem (absMem_iff.mp hc)
    rcases hL : L with _ | ⟨p, L₀⟩
    · -- empty cache
      subst hL
      have hs0 : LRUCache._getSize st = 0 := by
        unfold LRUCache._getSize
        rw [show storeGet st sizeKey = none by simpa using hsz]
      have habs : absSet C k v [] = ([], [(k, v)]) := by
        unfold absSet
        rw [hmemb]
        simp only [Bool.false_eq_true, if_false, List.length_nil, List.getLast?_nil,
          Nat.cast_zero]
        rw [if_neg (by omega)]
      have hsetEq : LRUCache.set ⟨C, none⟩ fuel st k v =
          some (LRUCache._increaseCharsSize
            (LRUCache._increaseSize ( LRUCache._initialize st ⟨none, none, v, k⟩))
            (LRUCache._getNewNodeEstimatedSize k v)) := by
        unfold LRUCache.set LRUCache._addNewNode
        rw [hg, hs0]
        simp
      rw [hsetEq, habs]
      refine ⟨_, rfl, initialize_spec ⟨hrel, hsz⟩ hk0 hkr _, ?_, by simp; omega⟩
      apply evictedBetween_nil_of_live
      intro p hp hn
      exact absurd (hrel.2.2.2.1 p hp hn) (by simp [keysOf_nil])
    · -- nonempty cache
      subst hL
      have hLne : (p :: L₀ : AbsState) ≠ [] := by simp
      have hs0 : LRUCache._getSize st = ((p :: L₀).length : Int) := rel_getSize ⟨hrel, hsz⟩
      have hsne : LRUCache._getSize st ≠ 0 := by
        rw [hs0]
        simp only [List.length_cons]
        push_cast
        omega
      by_cases hcap : ((p :: L₀).length : Int) + 1 > C
      · -- eviction
        have hlenC : ((p :: L₀).length : Int) = C := by omega
        obtain ⟨M, lst, hM⟩ : ∃ M lst, (p :: L₀ : AbsState) = M ++ [lst] := by
          rcases List.eq_nil_or_concat' (p :: L₀ : AbsState) with h0 | ⟨M, lst, h0⟩
          · simp at h0
          · exact ⟨M, lst, h0⟩
        obtain ⟨lk, lv⟩ := lst
        have hMne : M ≠ [] := by
          intro hc
          rw [hc] at hM
          have : ((p :: L₀ : AbsState).length : Int) = 1 := by rw [hM]; simp
          omega
        rw [hM] at hrel hsz hmem hmemb hs0 hcap hlenC ⊢
        obtain ⟨hrm1, hrm2, hrm3, hrm4, hrm5⟩ := removeHead_spec hrel hMne
        have hs2 : LRUCache._getSize (LRUCache._removeHead st).2
            = ((M ++ [(lk, lv)] : AbsState).length : Int) := by
          unfold LRUCache._getSize at hs0 ⊢
          rw [hrm3]
          exact hs0
        have hRel3 : Rel (LRUCache._decreaseSize (LRUCache._removeHead st).2 1) M := by
          unfold LRUCache._decreaseSize
          rw [hs2]
          refine ⟨relNoSize_storeSet_counter hrm2 (by simp [reservedKeys])
            (by decide) (by decide) rfl, ?_⟩
          rw [storeGet_storeSet_self]
          simp [List.isEmpty_iff, hMne, List.length_append]
        have hkM : k ∉ keysOf M := fun hc => hmem (by rw [keysOf_append]; simp [hc])
        have hsetEq : LRUCache.set ⟨C, none⟩ fuel st k v =
            some (LRUCache._increaseCharsSize
              (LRUCache._increaseSize (LRUCache._setTail
                (LRUCache._decreaseSize (LRUCache._removeHead st).2 1)
                ⟨none, none, v, k⟩))
              (LRUCache._getNewNodeEstimatedSize k v)) := by
          unfold LRUCache.set LRUCache._addNewNode LRUCache._checkCapacity
          rw [hg]
          simp only [Option.map_some', Option.some.injEq]
          rw [if_neg hsne, hs0, if_pos (by exact_mod_cast hcap)]
        have habs : absSet C k v (M ++ [(lk, lv)]) = ([lk], (k, v) :: M) := by
          unfold absSet
          rw [hmemb]
          simp only [Bool.false_eq_true, if_false]
          rw [if_pos (by exact_mod_cast hcap)]
          rw [List.getLast?_concat, List.dropLast_concat]
        rw [hsetEq, habs]
        have hfinal := insert_phase (e := LRUCache._getNewNodeEstimatedSize k v)
          (v := v) hRel3 hMne hkM hk0 hkr
        refine ⟨_, rfl, hfinal, ?_, ?_⟩
        · -- eviction log [lk]
          have hlkmem : lk ∈ keysOf (M ++ [(lk, lv)]) := by
            rw [keysOf_append]
            simp [keysOf_cons]
          rcases segOK_mem_node hrel.1 hlkmem with ⟨n, hlkg⟩
          have hklk : k ≠ lk := fun he => hmem (he ▸ hlkmem)
          have hlknotin : lk ∉ keysOf ((k, v) :: M) := by
            rw [keysOf_cons]
            intro hc
            rcases List.mem_cons.mp hc with h1 | h1
            · exact hklk h1.symm
            · have hndL := hrel.2.2.2.2.1
              simp only [keysOf_append, keysOf_cons, keysOf_nil] at hndL
              rw [List.nodup_append] at hndL
              exact hndL.2.2 h1 (by simp)
          refine evictedBetween_singleton hrel.2.2.2.2.2.2 (storeGet_mem hlkg) rfl
            (isLive_false_of_not_mem hfinal.1 hlknotin) ?_
          intro q hq hq1 hqn
          have hqmem : q.1 ∈ keysOf (M ++ [(lk, lv)]) := hrel.2.2.2.1 q hq hqn
          have hqM : q.1 ∈ keysOf ((k, v) :: M) := by
            rw [keysOf_append] at hqmem
            rcases List.mem_append.mp hqmem with h1 | h1
            · rw [keysOf_cons]
              exact List.mem_cons_of_mem _ h1
            · exact absurd (by simpa [keysOf_cons, keysOf_nil] using h1) hq1
          rcases segOK_mem_node hfinal.1.1 hqM with ⟨n2, hg2⟩
          exact isLive_of_node hg2
        · have h1 : (M ++ [(lk, lv)] : AbsState).length = M.length + 1 := by simp
          rw [h1] at hlenC
          show (((k, v) :: M).length : Int) ≤ C
          simp only [List.length_cons]
          push_cast at hlenC ⊢
          omega
      · -- no eviction
        have hsetEq : LRUCache.set ⟨C, none⟩ fuel st k v =
            some (LRUCache._increaseCharsSize
              (LRUCache._increaseSize (LRUCache._setTail st ⟨none, none, v, k⟩))
              (LRUCache._getNewNodeEstimatedSize k v)) := by
          unfold LRUCache.set LRUCache._addNewNode LRUCache._checkCapacity
          rw [hg]
          simp only [Option.map_some', Option.some.injEq]
          rw [if_neg hsne, hs0, if_neg (by exact_mod_cast hcap)]
        have habs : absSet C k v (p :: L₀) = ([], (k, v) :: (p :: L₀)) := by
          unfold absSet
          rw [hmemb]
          simp only [Bool.false_eq_true, if_false]
          rw [if_neg (by exact_mod_cast hcap)]
        rw [hsetEq, habs]
        have hfinal := insert_phase (e := LRUCache._getNewNodeEstimatedSize k v)
          (v := v) ⟨hrel, hsz⟩ hLne hmem hk0 hkr
        refine ⟨_, rfl, hfinal, ?_, ?_⟩
        · refine evictedBetween_nil_of_relpair hrel hfinal.1 ?_
          intro kk hkk
          rw [keysOf_cons]
          exact List.mem_cons_of_mem _ hkk
        · show (((k, v) :: p :: L₀).length : Int) ≤ C
          simp only [List.length_cons] at hcap ⊢
          push_cast at hcap ⊢
          omega

theorem runOps_sim {C : Int} (hC : 2 ≤ C) (fuel : Nat) :
    ∀ (ops : List Op) (st : St) (L : AbsState), Rel st L → (L.length : Int) ≤ C →
      (∀ op ∈ ops, op.keyOK) →
      ∃ st', runOps ⟨C, none⟩ fuel st ops = some (st', (absRun C L ops).2) ∧
        Rel st' (absRun C L ops).1 ∧ ((absRun C L ops).1.length : Int) ≤ C := by
  intro ops
  induction ops with
  | nil =>
    intro st L h hlen hops
    exact ⟨st, rfl, h, hlen⟩
  | cons op rest ih =>
    intro st L h hlen hops
    have hopk := hops op (by simp)
    have hrest : ∀ o ∈ rest, o.keyOK := fun o ho => hops o (by simp [ho])
    simp only [Op.keyOK, Op.key] at hopk
    cases op with
    | get k =>
      obtain ⟨hlook, hRel', hev', hlen'⟩ := get_spec h hopk.1 hopk.2
      have hlenA : ((absGet k L).length : Int) ≤ C := by
        rw [hlen']
        exact hlen
      obtain ⟨st', hrun, hRel2, hlen2⟩ := ih _ _ hRel' hlenA hrest
      refine ⟨st', ?_, ?_, ?_⟩
      · simp only [runOps, absRun]
        rw [hrun, hev']
        simp
      · simp only [absRun]
        exact hRel2
      · simp only [absRun]
        exact hlen2
    | set k v =>
      obtain ⟨st1, hset, hRel', hev', hlenA⟩ := set_spec fuel h hC hlen hopk.1 hopk.2
      obtain ⟨st', hrun, hRel2, hlen2⟩ := ih _ _ hRel' hlenA hrest
      refine ⟨st', ?_, ?_, ?_⟩
      · simp only [runOps, absRun]
        rw [hset]
        dsimp only
        rw [hrun]
        simp only [Option.map_some']
        rw [hev']
      · simp only [absRun]
        exact hRel2
      · simp only [absRun]
        exact hlen2

/-- C1 counterexample: at capacity 1, the run `set(1,"a"); set(2,"b");
set(3,"c")` records only `["1"]` as evicted and ends with zero live
entries, while the least-recently-touched keys in touch order are
`["1", "2"]` (with `"3"` live). -/
theorem C1_counterexample :
    (runOps cfgCap1 9 [] opsABC).map (fun r => (r.2, liveCount r.1)) = some (["1"], 0) ∧
    (absRun 1 ([] : AbsState) opsABC).2 = ["1", "2"] := by
  decide

/-- C1: for a cache of entry capacity `C ≥ 2` with byte capacity
disabled, every run of `set`/`get` operations on nonempty, non-reserved
keys starting from empty storage completes; its eviction log is exactly
the abstract LRU log (the least-recently-touched keys in touch order),
the final storage realizes the abstract LRU contents, and the number of
live entries never exceeds `C`. -/
theorem C1_capacity_and_lru_eviction (C : Int) (hC : 2 ≤ C) (fuel : Nat)
    (ops : List Op) (hops : ∀ op ∈ ops, op.keyOK) :
    ∃ st' : St,
      runOps ⟨C, none⟩ fuel [] ops = some (st', (absRun C ([] : AbsState) ops).2) ∧
      Rel st' (absRun C ([] : AbsState) ops).1 ∧
      (liveCount st' : Int) ≤ C := by
  have hrel : Rel ([] : St) ([] : AbsState) := by decide
  obtain ⟨st', hrun, hRel, hlen⟩ := runOps_sim hC fuel ops [] [] hrel (by simp; omega) hops
  refine ⟨st', hrun, hRel, ?_⟩
  rw [relNoSize_liveCount hRel.1]
  exact hlen

/-- Witness for C1 at `C = 2` on the single operation `set("1","a")`. -/
theorem C1_capacity_and_lru_eviction_witness :
    ∃ st' : St,
      runOps ⟨2, none⟩ 5 [] [Op.set "1" "a"]
        = some (st', (absRun 2 ([] : AbsState) [Op.set "1" "a"]).2) ∧
      Rel st' (absRun 2 ([] : AbsState) [Op.set "1" "a"]).1 ∧
      (liveCount st' : Int) ≤ 2 :=
  C1_capacity_and_lru_eviction 2 (by decide) 5 [Op.set "1" "a"] (by decide)

/-- C2: the concrete capacity-3 scenario.  After `set(1,"a"); set(2,"b");
set(3,"c")` the MRU-to-LRU traversal yields keys `[3,2,1]` and nothing
was evicted; after `set(4,"d")` it yields `[4,3,2]` with `1` evicted;
after `get(2)` it yields `[2,4,3]`; after `set(5,"e")` it yields
`[5,2,4]` with `3` also evicted. -/
theorem C2_capacity_three_scenario :
    ((runOps cfgCap3 9 [] opsABC).map
        (fun r => ((LRUCache.entries r.1 9).map Prod.fst, r.2))
      = some ([some "3", some "2", some "1"], [])) ∧
    ((runOps cfgCap3 9 [] opsC2b).map
        (fun r => ((LRUCache.entries r.1 9).map Prod.fst, r.2))
      = some ([some "4", some "3", some "2"], ["1"])) ∧
    ((runOps cfgCap3 9 [] opsC2c).map
        (fun r => ((LRUCache.entries r.1 9).map Prod.fst, r.2))
      = some ([some "2", some "4", some "3"], ["1"])) ∧
    ((runOps cfgCap3 9 [] opsC2d).map
        (fun r => ((LRUCache.entries r.1 9).map Prod.fst, r.2))
      = some ([some "5", some "2", some "4"], ["1", "3"])) := by
  decide

/-- C3 counterexample: on an empty storage each generator still yields
one pair (the unconditional first yield), namely `(undefined,
undefined)`. -/
theorem C3_counterexample :
    LRUCache.entries ([] : St) 1 ≠ [] ∧ LRUCache.reverseEntries ([] : St) 1 ≠ [] := by
  decide

/-- C3: on an empty storage, both generators produce exactly the single
pair `(undefined, undefined)` — one yield, not an empty sequence —
regardless of the loop fuel. -/
theorem C3_empty_iteration (fuel : Nat) :
    LRUCache.entries ([] : St) fuel = [(none, none)] ∧
    LRUCache.reverseEntries ([] : St) fuel = [(none, none)] := by
  cases fuel with
  | zero => exact ⟨rfl, rfl⟩
  | succ n => exact ⟨rfl, rfl⟩

/-- C10: whenever the `logger` argument is absent, `memoize` throws a
`TypeError` during construction, whatever the shape of the other
arguments; no wrapped callable is produced. -/
theorem C10_logger_required (f k c : Bool) :
    ∃ e, memoizeInit f k c none = .error e := by
  cases f <;> cases k <;> cases c <;> exact ⟨_, rfl⟩

/-- C4 counterexample: build the one-entry cache by a concrete `set`,
evict with `_removeHead`: zero live entries remain, yet both anchors are
still present and still name the removed key. -/
theorem C4_counterexample :
    (LRUCache.set cfgCap3 9 [] "a" "v").map
        (fun st1 =>
          (storeGet (LRUCache._removeHead st1).2 headKeyPtr,
           storeGet (LRUCache._removeHead st1).2 tailKeyPtr,
           liveCount (LRUCache._removeHead st1).2))
      = some (some (.str "a"), some (.str "a"), 0) := by
  decide

/-- C4: evicting the only node of a one-node cache deletes the node
record but leaves both anchors in place, still referring to the removed
key — it does not leave them absent, so the empty-cache invariant fails
after the operation. -/
theorem C4_single_node_eviction {st : St} {k v : String}
    (h : RelNoSize st [(k, v)]) :
    storeGet (LRUCache._removeHead st).2 headKeyPtr = some (.str k) ∧
    storeGet (LRUCache._removeHead st).2 tailKeyPtr = some (.str k) ∧
    storeGet (LRUCache._removeHead st).2 k = none ∧
    (LRUCache._removeHead st).1 = some ⟨none, none, v, k⟩ := by
  obtain ⟨hseg, htl, hhd, hjunk, hnd, hval, hstnd⟩ := h
  obtain ⟨hk0, hkr⟩ := hval k (by simp [keysOf])
  rcases not_mem_reserved_iff.mp hkr with ⟨hk_h, hk_t, _, _⟩
  obtain ⟨hnode0, -⟩ := hseg
  have hnode : storeGet st k = some (.node ⟨none, none, v, k⟩) := hnode0
  have hhd' : storeGet st headKeyPtr = some (.str k) := hhd
  have htl' : storeGet st tailKeyPtr = some (.str k) := htl
  have hgh : LRUCache._getHead st = some ⟨none, none, v, k⟩ := by
    simp only [LRUCache._getHead, hhd', if_neg hk0, LRUCache._getNode, hnode]
  have hres : LRUCache._removeHead st = (some ⟨none, none, v, k⟩, storeDel st k) := by
    simp only [LRUCache._removeHead, hgh, optKey]
    rw [if_neg hk0]
  rw [hres]
  refine ⟨?_, ?_, storeGet_storeDel_self st k, rfl⟩
  · rw [storeGet_storeDel_ne st (Ne.symm hk_h)]
    exact hhd'
  · rw [storeGet_storeDel_ne st (Ne.symm hk_t)]
    exact htl'

/-- Witness for C4 at the concrete one-entry cache `oneNodeSt`. -/
theorem C4_single_node_eviction_witness :
    storeGet (LRUCache._removeHead oneNodeSt).2 headKeyPtr = some (.str "a") ∧
    storeGet (LRUCache._removeHead oneNodeSt).2 tailKeyPtr = some (.str "a") ∧
    storeGet (LRUCache._removeHead oneNodeSt).2 "a" = none ∧
    (LRUCache._removeHead oneNodeSt).1 = some ⟨none, none, "v", "a"⟩ :=
  @C4_single_node_eviction oneNodeSt "a" "v" (by decide)

/-- C7 counterexample: on the storage `danglingSt`, whose LRU anchor and
whose node `"a"` both reference the missing key `"ghost"`, `_removeHead`
and `get` both complete silently (the latter even reporting the value),
leaving the storage untouched; no error of any kind is raised. -/
theorem C7_counterexample :
    LRUCache._removeHead danglingSt = (none, danglingSt) ∧
    LRUCache.get danglingSt "a" = (some "v", danglingSt) := by
  decide

/-- C7: whenever the LRU anchor references a key with no record in
storage, `_removeHead` completes silently as a no-op — it neither fails
nor repairs the dangling reference. -/
theorem C7_broken_link_silent {st : St} {g : String}
    (hh : storeGet st headKeyPtr = some (.str g)) (hg : g ≠ "")
    (hmiss : storeGet st g = none) :
    LRUCache._removeHead st = (none, st) := by
  have hgh : LRUCache._getHead st = none := by
    simp only [LRUCache._getHead, hh, if_neg hg, LRUCache._getNode, hmiss]
  simp only [LRUCache._removeHead, hgh]

/-- Witness for C7 at the concrete corrupted storage `danglingSt`. -/
theorem C7_broken_link_silent_witness :
    LRUCache._removeHead danglingSt = (none, danglingSt) :=
  @C7_broken_link_silent danglingSt "ghost" (by decide) (by decide) (by decide)

/-- C8: `set` on a key already present in the cache, at every capacity,
succeeds without evicting, leaves the number of live entries unchanged,
makes the key the tail (MRU position), and stores the new value in its
node. -/
theorem C8_set_existing {st : St} {C : Int} {L : AbsState} {k v : String} (fuel : Nat)
    (h : Rel st L) (hk0 : k ≠ "") (hkr : k ∉ reservedKeys) (hmem : k ∈ keysOf L) :
    ∃ st', LRUCache.set ⟨C, none⟩ fuel st k v = some st' ∧
      evictedBetween st st' = [] ∧
      liveCount st' = liveCount st ∧
      storeGet st' tailKeyPtr = some (.str k) ∧
      (LRUCache._getNode st' k).map Node.value = some v := by
  obtain ⟨st', hset, hRel2, hev2, hlen'⟩ := set_mem_spec fuel h hk0 hkr hmem
  refine ⟨st', hset, hev2, ?_, ?_, ?_⟩
  · rw [relNoSize_liveCount hRel2.1, relNoSize_liveCount h.1]
    exact hlen'
  · exact hRel2.1.2.1
  · have hg := hRel2.1.1.1
    unfold LRUCache._getNode
    rw [hg]
    rfl

/-- Witness for C8 at capacity 1: overwriting the key `"a"` of the
concrete one-entry cache `oneNodeSt` with the value `"b"`. -/
theorem C8_set_existing_witness :
    ∃ st', LRUCache.set ⟨1, none⟩ 5 oneNodeSt "a" "b" = some st' ∧
      evictedBetween oneNodeSt st' = [] ∧
      liveCount st' = liveCount oneNodeSt ∧
      storeGet st' tailKeyPtr = some (.str "a") ∧
      (LRUCache._getNode st' "a").map Node.value = some "b" :=
  @C8_set_existing oneNodeSt 1 [("a", "v")] "a" "b" 5 (by decide) (by decide)
    (by decide) (by decide)

/-- C9 counterexample: the wrapper tests the cached value and the
function result for truthiness, not presence.  With the empty string
cached under the derived key, the call is treated as a miss and `func`
is invoked; and when `func` returns the empty string, it is invoked a
second time. -/
theorem C9_counterexample :
    (memoizedCall none (fun _ => "K") (fun _ => "r") [("K", "")] []).events
      = [MEvent.funcCalled] ∧
    (memoizedCall none (fun _ => "K") (fun _ => "") [] []).funcInvocations = 2 := by
  decide

/-- C9: the wrapped callable's contract, corrected for truthiness.  If
the cache holds a truthy (non-empty) value for the derived key, the call
reports the cache-use hook and returns it without invoking `func`; if the
cache holds no truthy value for the key and `func`'s result is truthy,
the call reports the function hook, invokes `func` exactly once, stores
the result, and returns it. -/
theorem C9_memoized_call_contract (kr : Option (List String → String))
    (hk f : List String → String) (st : List (String × String)) (args : List String) :
    (∀ v, cacheGet st (memoKey kr hk args) = some v → v ≠ "" →
      memoizedCall kr hk f st args = ⟨v, st, [.cacheUsed], 0⟩) ∧
    ((∀ v, cacheGet st (memoKey kr hk args) = some v → v = "") →
      f args ≠ "" →
      memoizedCall kr hk f st args
        = ⟨f args, cacheSet st (memoKey kr hk args) (f args), [.funcCalled], 1⟩) := by
  have hkey : (match kr with | some r => r args | none => hk args) = memoKey kr hk args :=
    rfl
  constructor
  · intro v hget hv
    simp only [memoizedCall, hkey]
    rw [hget]
    simp [hv]
  · intro hfalsy hf
    simp only [memoizedCall, hkey]
    cases hget : cacheGet st (memoKey kr hk args) with
    | none => simp [hf]
    | some v =>
      have hv : v = "" := hfalsy v hget
      subst hv
      simp [hf]

/-- Witness for C9: a hit on the truthy cached value `"x"`, and a miss
on an empty cache with the truthy result `"r"` stored and returned. -/
theorem C9_memoized_call_contract_witness :
    memoizedCall none (fun _ => "K") (fun _ => "r") [("K", "x")] []
      = ⟨"x", [("K", "x")], [.cacheUsed], 0⟩ ∧
    memoizedCall none (fun _ => "K") (fun _ => "r") [] []
      = ⟨"r", [("K", "r")], [.funcCalled], 1⟩ :=
  ⟨(C9_memoized_call_contract none (fun _ => "K") (fun _ => "r") [("K", "x")] []).1
      "x" rfl (by decide),
   (C9_memoized_call_contract none (fun _ => "K") (fun _ => "r") [] []).2
      (fun v hv => by simp [cacheGet] at hv) (by decide)⟩

/-- Once `_removeHead` makes no progress on a storage while the byte
condition still holds, the eviction loop of `_checkCapacity` runs
forever (returns `none` at every fuel). -/
theorem charsEvictLoop_stuck {cap ccs est : Int} {st : St}
    (hrh : LRUCache._removeHead st = (none, st)) :
    ∀ (fuel : Nat) (ri rc : Int), ccs + est - rc > cap →
      LRUCache.charsEvictLoop cap ccs est fuel ri rc st = none := by
  intro fuel
  induction fuel with
  | zero =>
    intro ri rc hcond
    unfold LRUCache.charsEvictLoop
    rw [if_pos hcond]
  | succ n ih =>
    intro ri rc hcond
    unfold LRUCache.charsEvictLoop
    rw [if_pos hcond, hrh]
    exact ih (ri + 1) (rc + 0) (by omega)

/-- C6: with capacity 100 and byte capacity 50, inserting the single
oversized value `bigValue` succeeds and the cache holds exactly that one
entry; but a subsequent `set` of a fresh key never completes at any
fuel: the eviction loop evicts the oversized node, the anchors are left
dangling, `_removeHead` stops making progress, and the loop's byte
condition can never again decrease, so the source loops forever instead
of completing. -/
theorem C6_byte_capacity_overflow :
    LRUCache.set cfgBytes 9 [] "big" bigValue = some bigSt ∧
    liveCount bigSt = 1 ∧
    ∀ fuel : Nat, LRUCache.set cfgBytes fuel bigSt "b" "w" = none := by
  refine ⟨by decide, by decide, ?_⟩
  intro fuel
  have hrm : LRUCache._removeHead bigSt = (some ⟨none, none, bigValue, "big"⟩, stuckSt) := by
    decide
  have hstuck : LRUCache._removeHead stuckSt = (none, stuckSt) := by decide
  have hloop : ∀ f : Nat,
      LRUCache.charsEvictLoop 50 404 (LRUCache._getNewNodeEstimatedSize "b" "w") f 0 0 bigSt
        = none := by
    intro f
    cases f with
    | zero => decide
    | succ n =>
      unfold LRUCache.charsEvictLoop
      rw [if_pos (by decide), hrm]
      exact charsEvictLoop_stuck hstuck n _ _ (by decide)
  show (Option.map
      (fun st1 => LRUCache._increaseCharsSize
        (LRUCache._increaseSize (LRUCache._setTail st1 ⟨none, none, "w", "b"⟩))
        (LRUCache._getNewNodeEstimatedSize "b" "w"))
      (Option.map
        (fun st1 => if LRUCache._getSize st1 + 1 > (100 : Int) then
            LRUCache._decreaseSize (LRUCache._removeHead st1).2 1
          else st1)
        (Option.map
          (fun r => LRUCache._decreaseCharsSize (LRUCache._decreaseSize r.2.2 r.1) r.2.1)
          (LRUCache.charsEvictLoop 50 404
            (LRUCache._getNewNodeEstimatedSize "b" "w") fuel 0 0 bigSt))))
    = none
  rw [hloop fuel]
  rfl

/-- C5 counterexample: with byte-capacity enabled, after one completed
`set` the tracked character-size counter is 337, while the sum of the
per-node estimates of the live nodes is just the one estimate 46: the
counter additionally carries the metadata baseline 291. -/
theorem C5_counterexample :
    (LRUCache.set ⟨100, some 1000⟩ 9 [] "k" "w").map LRUCache._getCharsSize
      = some 337 ∧
    LRUCache._getNewNodeEstimatedSize "k" "w" = 46 ∧
    LRUCache._getMetadataEstimatedCharsSize = 291 := by
  decide

/-- The tracked character counter after `_increaseCharsSize`. -/
theorem getCharsSize_increaseCharsSize (st : St) (d : Int) :
    LRUCache._getCharsSize (LRUCache._increaseCharsSize st d)
      = LRUCache._getCharsSize st + d := by
  unfold LRUCache._increaseCharsSize LRUCache._getCharsSize
  rw [storeGet_storeSet_self]

/-- The tracked character counter after `_decreaseCharsSize`. -/
theorem getCharsSize_decreaseCharsSize (st : St) (d : Int) :
    LRUCache._getCharsSize (LRUCache._decreaseCharsSize st d)
      = LRUCache._getCharsSize st - d := by
  unfold LRUCache._decreaseCharsSize LRUCache._getCharsSize
  rw [storeGet_storeSet_self]

/-- `_increaseSize` does not touch the character counter. -/
theorem getCharsSize_increaseSize (st : St) :
    LRUCache._getCharsSize (LRUCache._increaseSize st)
      = LRUCache._getCharsSize st := by
  unfold LRUCache._increaseSize LRUCache._getCharsSize
  rw [storeGet_storeSet_ne _ _ (show charsSizeKey ≠ sizeKey by decide)]

/-- `_decreaseSize` does not touch the character counter. -/
theorem getCharsSize_decreaseSize (st : St) (d : Int) :
    LRUCache._getCharsSize (LRUCache._decreaseSize st d)
      = LRUCache._getCharsSize st := by
  unfold LRUCache._decreaseSize LRUCache._getCharsSize
  rw [storeGet_storeSet_ne _ _ (show charsSizeKey ≠ sizeKey by decide)]

/-- `_decreaseCharsSize` does not touch the size counter. -/
theorem getSize_decreaseCharsSize (st : St) (d : Int) :
    LRUCache._getSize (LRUCache._decreaseCharsSize st d) = LRUCache._getSize st := by
  unfold LRUCache._decreaseCharsSize LRUCache._getSize
  rw [storeGet_storeSet_ne _ _ (show sizeKey ≠ charsSizeKey by decide)]

/-- The size counter after `_decreaseSize`. -/
theorem getSize_decreaseSize (st : St) (d : Int) :
    LRUCache._getSize (LRUCache._decreaseSize st d) = LRUCache._getSize st - d := by
  unfold LRUCache._decreaseSize LRUCache._getSize
  rw [storeGet_storeSet_self]

/-- C5: byte accounting of a completed insertion of a fresh key, with
byte capacity enabled and neither capacity exceeded.  The tracked
character-size counter grows by exactly the node estimated size
(which, by construction, never depends on the node actual neighbour
references) — except that the very first insertion resets the counter to
the metadata baseline plus the estimate.  Hence after a run of such
insertions the counter equals the metadata baseline plus the sum of the
per-node estimates of the live nodes, not the bare sum the claim
states. -/
theorem C5_byte_accounting {st : St} {L : AbsState} {cap bcap : Int} (fuel : Nat)
    {k v : String}
    (h : Rel st L) (hk0 : k ≠ "") (hkr : k ∉ reservedKeys) (hk : k ∉ keysOf L)
    (hb : 0 < bcap)
    (hchars : LRUCache._getCharsSize st + LRUCache._getNewNodeEstimatedSize k v ≤ bcap)
    (hcap : (L.length : Int) + 1 ≤ cap) :
    ∃ st', LRUCache.set ⟨cap, some bcap⟩ fuel st k v = some st' ∧
      LRUCache._getCharsSize st' =
        (if L.isEmpty then LRUCache._getMetadataEstimatedCharsSize
         else LRUCache._getCharsSize st)
          + LRUCache._getNewNodeEstimatedSize k v := by
  have hg : LRUCache._getNode st k = none := relNoSize_getNode_not_mem h.1 hk
  rcases not_mem_reserved_iff.mp hkr with ⟨hk_h, hk_t, hk_c, hk_s⟩
  by_cases hL : L = []
  · subst hL
    have hsz : storeGet st sizeKey = none := h.2
    have hs0 : LRUCache._getSize st = 0 := by
      unfold LRUCache._getSize
      rw [hsz]
    refine ⟨LRUCache._increaseCharsSize
        (LRUCache._increaseSize ( LRUCache._initialize st ⟨none, none, v, k⟩))
        (LRUCache._getNewNodeEstimatedSize k v), ?_, ?_⟩
    · simp only [LRUCache.set, hg, LRUCache._addNewNode, hs0]
      simp only [if_true]
    · rw [getCharsSize_increaseCharsSize, getCharsSize_increaseSize]
      have hinit : LRUCache._getCharsSize ( LRUCache._initialize st ⟨none, none, v, k⟩)
          = LRUCache._getMetadataEstimatedCharsSize := by
        unfold LRUCache._initialize LRUCache._setNode LRUCache._getCharsSize
        rw [storeGet_storeSet_ne _ _ (Ne.symm hk_c), storeGet_storeSet_self]
      rw [hinit]
      simp
  · have hszv : storeGet st sizeKey = some (.num (L.length : Int)) := by
      rw [h.2, if_neg (by simp [List.isEmpty_iff, hL])]
    have hs : LRUCache._getSize st = (L.length : Int) := by
      unfold LRUCache._getSize
      rw [hszv]
    have hsne : ¬ LRUCache._getSize st = 0 := by
      rw [hs]
      intro hc
      exact hL (List.length_eq_zero.mp (by exact_mod_cast hc))
    have hloop : ∀ f : Nat, LRUCache.charsEvictLoop bcap (LRUCache._getCharsSize st)
        (LRUCache._getNewNodeEstimatedSize k v) f 0 0 st = some (0, 0, st) := by
      intro f
      cases f with
      | zero =>
        unfold LRUCache.charsEvictLoop
        rw [if_neg (by omega)]
      | succ n =>
        unfold LRUCache.charsEvictLoop
        rw [if_neg (by omega)]
    have hccheck : LRUCache._checkCapacity ⟨cap, some bcap⟩ fuel st ⟨none, none, v, k⟩
        = some (LRUCache._decreaseCharsSize (LRUCache._decreaseSize st 0) 0) := by
      simp only [LRUCache._checkCapacity]
      rw [if_pos hb, hloop fuel]
      simp only [Option.map_some']
      rw [if_neg ?_]
      rw [getSize_decreaseCharsSize, getSize_decreaseSize, hs]
      omega
    have h1rel : RelNoSize (LRUCache._decreaseCharsSize (LRUCache._decreaseSize st 0) 0) L := by
      refine relNoSize_storeSet_counter ?_ (by simp [reservedKeys]) (by decide) (by decide) rfl
      exact relNoSize_storeSet_counter h.1 (by simp [reservedKeys]) (by decide) (by decide) rfl
    have hch1 : LRUCache._getCharsSize (LRUCache._decreaseCharsSize (LRUCache._decreaseSize st 0) 0)
        = LRUCache._getCharsSize st := by
      rw [getCharsSize_decreaseCharsSize, getCharsSize_decreaseSize]
      omega
    obtain ⟨hrelT, hszT, hchT⟩ := setTail_insert_spec h1rel hL hk hk0 hkr
    refine ⟨LRUCache._increaseCharsSize
        (LRUCache._increaseSize (LRUCache._setTail
          (LRUCache._decreaseCharsSize (LRUCache._decreaseSize st 0) 0)
          ⟨none, none, v, k⟩))
        (LRUCache._getNewNodeEstimatedSize k v), ?_, ?_⟩
    · simp only [LRUCache.set, hg, LRUCache._addNewNode]
      rw [if_neg hsne, hccheck]
      simp only [Option.map_some']
    · rw [getCharsSize_increaseCharsSize, getCharsSize_increaseSize]
      have hchT2 : LRUCache._getCharsSize (LRUCache._setTail
          (LRUCache._decreaseCharsSize (LRUCache._decreaseSize st 0) 0)
          ⟨none, none, v, k⟩)
          = LRUCache._getCharsSize
              (LRUCache._decreaseCharsSize (LRUCache._decreaseSize st 0) 0) := by
        unfold LRUCache._getCharsSize
        rw [hchT]
      rw [hchT2, hch1, if_neg (by simp [List.isEmpty_iff, hL])]

/-- Witness for C5: the first insertion into an empty cache with byte
capacity 1000 ends with the counter at the metadata baseline plus the
node estimate. -/
theorem C5_byte_accounting_witness :
    ∃ st', LRUCache.set ⟨100, some 1000⟩ 5 [] "k" "w" = some st' ∧
      LRUCache._getCharsSize st' =
        LRUCache._getMetadataEstimatedCharsSize
          + LRUCache._getNewNodeEstimatedSize "k" "w" :=
  @C5_byte_accounting [] [] 100 1000 5 "k" "w" (by decide) (by decide) (by decide)
    (by decide) (by decide) (by decide) (by decide)

end LRUSpec
